import Mathlib

/-
Verification development for the python-foreman client generator
(foreman/client.py). The definitions below are a shallow embedding of the
definition-parsing and function-synthesis pipeline: endpoint-name
derivation (MethodAPIDescription._get_name), URL parameter extraction
(re.findall on the api_url), parameter merging and signature construction
(MethodAPIDescription.generate_func), URL filling (Resource._fill_url),
per-resource parsing (parse_resource_definition), the resource assembler
(Foreman._generate_api_defs), HTTP result processing
(Foreman._process_request_result) and diagnostic rendering (res_to_str).
Strings are modelled on their character lists; python dicts that are used
as insertion-ordered maps are modelled as association lists where an
assignment to an existing key replaces the value in place and an
assignment to a fresh key appends at the end, which is exactly the
observable iteration behaviour of python dicts.
-/

deriving instance DecidableEq for Except

namespace Foreman

/-- characters accepted by the resource regex word class; ASCII model of the
regex class used in MethodAPIDescription.resource_pattern. -/
def isWordChar (c : Char) : Bool := c.isAlpha || c.isDigit || c = '_'

/-- number of occurrences of a character, python s.count(c). -/
def countChar (c : Char) (cs : List Char) : Nat := (cs.filter (fun d => d = c)).length

/-- python s.replace(a, b) for single characters. -/
def replaceChar (a b : Char) (cs : List Char) : List Char :=
  cs.map (fun c => if c = a then b else c)

/-- last element of python s.split(sep, n): the remainder after the n-th
separator, or after the last one if there are fewer than n. -/
def afterSplit (sep : Char) : Nat → List Char → List Char
  | 0, cs => cs
  | n + 1, cs =>
    match cs.dropWhile (fun c => c ≠ sep) with
    | [] => cs
    | _ :: rest => afterSplit sep n rest

/-- python s.split(sep)[-1]: the suffix after the last separator. -/
def lastPiece (sep : Char) (cs : List Char) : List Char :=
  (cs.reverse.takeWhile (fun c => c ≠ sep)).reverse

/-- python str.lower restricted to ASCII letters, as used on resource names. -/
def pyLowerChar (c : Char) : Char :=
  if 'A' ≤ c ∧ c ≤ 'Z' then Char.ofNat (c.toNat + 32) else c

def pyLower (s : String) : String := String.mk (s.data.map pyLowerChar)

/-- fuel-driven scan for re.sub applied in _get_name: the pattern is an
underscore, a colon, then a greedy nonempty run of characters other than a
slash; every match is removed, scanning resumes after the match, and a
position where the pattern cannot match is copied and the scan advances by
one character. The fuel is always instantiated with the list length, which
bounds the number of scan steps. -/
def subUCAux : Nat → List Char → List Char
  | 0, cs => cs
  | _ + 1, [] => []
  | f + 1, '_' :: rest =>
    match rest with
    | ':' :: c :: rest' =>
      if c = '/' then '_' :: subUCAux f rest
      else subUCAux f ((c :: rest').dropWhile (fun d => d ≠ '/'))
    | _ => '_' :: subUCAux f rest
  | f + 1, c :: rest => c :: subUCAux f rest

/-- model of re.sub removing the underscore-colon-run matches, as executed
on the base name inside MethodAPIDescription._get_name. -/
def subUnderColon (cs : List Char) : List Char := subUCAux cs.length cs

/-- python rsplit on the last underscore followed by joining with an
underscore and the method name: the join separator replaces the removed
underscore, so no extra underscore appears after the method name. -/
def spliceMethodName (b : List Char) (method : String) : List Char :=
  if b.contains '_' then
    let after := (b.reverse.takeWhile (fun c => c ≠ '_')).reverse
    let before := (b.reverse.drop (after.length + 1)).reverse
    before ++ ('_' :: method.data) ++ after
  else b

/-- tail of the resource regex after the api part: a slash followed by a
nonempty greedy run of word characters, which is the captured resource. -/
def matchTail : List Char → Option String
  | '/' :: cs =>
    let w := cs.takeWhile isWordChar
    if w.isEmpty then none else some (String.mk w)
  | _ => none

/-- MethodAPIDescription.parse_resource_from_url: the api root maps to the
api resource, otherwise the anchored regex with an optional version segment
is matched with backtracking on the optional group. -/
def parseResourceFromUrl (url : String) : Option String :=
  if url = "/api" then some "api"
  else
    match url.data with
    | '/' :: 'a' :: 'p' :: 'i' :: rest =>
      (match
        (match rest with
         | '/' :: 'v' :: v :: rest' =>
           if v = '1' ∨ v = '2' then matchTail rest' else none
         | _ => none) with
       | some r => some r
       | none => matchTail rest)
    | _ => none

/-- owning resource of a url, with the empty string when the regex does not
match, as in the MethodAPIDescription constructor. -/
def resourceOfUrl (url : String) : String := (parseResourceFromUrl url).getD ""

/-- base name computation of MethodAPIDescription._get_name: with more than
one colon in the url, everything after the third slash is taken, slashes
become underscores, the first character is dropped, a leading colon makes
the name collapse to its last underscore piece, the underscore-colon-run
matches are removed, a trailing underscore is dropped, and the method name
is spliced in at the last underscore; otherwise the base name is the method
name itself. -/
def getBaseName (url method : String) : String :=
  if 1 < countChar ':' url.data then
    let b1 := (replaceChar '/' '_' (afterSplit '/' 3 url.data)).drop 1
    let b2 := match b1 with
      | ':' :: _ => lastPiece '_' b1
      | _ => b1
    let b3 := subUnderColon b2
    let b4 := match b3.getLast? with
      | some '_' => b3.dropLast
      | _ => b3
    String.mk (spliceMethodName b4 method)
  else method

/-- MethodAPIDescription._get_name: the base name, with the declaring
resource name and an underscore prepended when the declaring resource
differs from the resource resolved from the url. -/
def getName (url method apipie : String) : String :=
  if apipie = resourceOfUrl url then getBaseName url method
  else apipie ++ "_" ++ getBaseName url method

/-- fuel-driven scan for the findall call that extracts url parameters: a
match is a slash, a colon, a greedy nonempty run of characters other than a
slash, and then a slash or the end of the input; the run is captured, the
closing slash is consumed by the match, and scanning resumes after the
match. The fuel is always instantiated with the list length. -/
def urlParamsAux : Nat → List Char → List String
  | 0, _ => []
  | _ + 1, [] => []
  | f + 1, '/' :: rest =>
    (match rest with
     | ':' :: c :: rest' =>
       if c = '/' then urlParamsAux f rest
       else
         let run := (c :: rest').takeWhile (fun d => d ≠ '/')
         let rem := (c :: rest').dropWhile (fun d => d ≠ '/')
         String.mk run ::
           (match rem with
            | _ :: tail => urlParamsAux f tail
            | [] => [])
     | _ => urlParamsAux f rest)
  | f + 1, _ :: rest => urlParamsAux f rest

/-- url parameter names of a url template, in order of appearance, as
computed in the MethodAPIDescription constructor. -/
def urlParams (url : String) : List String := urlParamsAux url.data.length url.data

/-- declared parameter of an api method, the fields of the apipie parameter
dictionaries that generate_func reads. The nested sub parameter lists are
only used for docstring rendering and are not modelled. -/
structure Param where
  name : String
  required : Bool
  description : String
  validator : String
deriving DecidableEq

/-- python values as far as the generated functions inspect them: the
argument default None, strings, integers and booleans. -/
inductive PyVal where
  | none
  | str (s : String)
  | int (n : Int)
  | bool (b : Bool)
deriving DecidableEq

/-- python truthiness, the test applied by the generated body when it keeps
an argument in the request mapping. -/
def PyVal.truthy : PyVal → Bool
  | .none => false
  | .str s => s ≠ ""
  | .int n => n ≠ 0
  | .bool b => b

/-- python str of a value, used when a url template position is filled. -/
def PyVal.pyStr : PyVal → String
  | .none => "None"
  | .str s => s
  | .int n => toString n
  | .bool b => if b then "True" else "False"

/-- association list lookup with string keys, the first matching entry. -/
def alookup {α : Type} : List (String × α) → String → Option α
  | [], _ => Option.none
  | (k, v) :: t, n => if k = n then some v else alookup t n

/-- python dict assignment: replace in place when the key exists, append at
the end otherwise. -/
def aset {α : Type} : List (String × α) → String → α → List (String × α)
  | [], k, v => [(k, v)]
  | (k', v') :: t, k, v => if k' = k then (k, v) :: t else (k', v') :: aset t k v

/-- insertion of a declared parameter into the name-keyed dict built at the
top of generate_func: a later parameter with an existing name replaces the
stored one but keeps its position. -/
def insertParam (ps : List Param) (p : Param) : List Param :=
  if ps.any (fun q => q.name = p.name) then
    ps.map (fun q => if q.name = p.name then p else q)
  else ps ++ [p]

/-- treatment of one url parameter in generate_func: an existing entry has
its required flag forced true, a missing one is synthesized with empty
description and validator. -/
def addUrlParam (ps : List Param) (n : String) : List Param :=
  if ps.any (fun q => q.name = n) then
    ps.map (fun q => if q.name = n then { q with required := true } else q)
  else ps ++ [⟨n, true, "", ""⟩]

/-- parameter dict of generate_func after the declared parameters are keyed
by name and the url parameters are merged in. -/
def mergedParams (url : String) (declared : List Param) : List Param :=
  (urlParams url).foldl addUrlParam (declared.foldl insertParam [])

/-- parameters in the order of the generated signature: the required ones
first, then the optional ones, each group in dict order. -/
def orderedParams (url : String) (declared : List Param) : List Param :=
  let ps := mergedParams url declared
  ps.filter (fun p => p.required) ++ ps.filter (fun p => !p.required)

/-- local name of a parameter in the generated function: the reserved word
except is aliased, every other name is kept. -/
def localName (n : String) : String := if n = "except" then "except_" else n

/-- generated signature: local name and required flag per parameter; a
required parameter is rendered without a default, an optional one with the
default None. -/
def signatureOf (url : String) (declared : List Param) : List (String × Bool) :=
  (orderedParams url declared).map (fun p => (localName p.name, p.required))

/-- call-time failures of a generated function: the missing required
argument failure raised by the interpreter when the call is bound, and the
missing key failure raised inside _fill_url. Both realize the spec error
kind for a required url parameter missing at call time. -/
inductive CallErr where
  | missingRequiredArg (n : String)
  | fillKeyError (n : String)
deriving DecidableEq

/-- kwargs capture inside _fill_url: one entry per url parameter, looked up
among the function locals by original name; a url parameter that is not a
local raises a key failure. -/
def buildFillKwargs (params : List String) (sigNames : List String)
    (args : String → Option PyVal) : Except CallErr (List (String × PyVal)) :=
  params.foldl
    (fun acc k =>
      match acc with
      | .error e => .error e
      | .ok l =>
        if sigNames.contains k then .ok (l ++ [(k, (args k).getD .none)])
        else .error (.fillKeyError k))
    (.ok [])

/-- fuel-driven url substitution of _fill_url: each colon followed by a
greedy nonempty run of characters other than a slash is a template field,
replaced with the python str of the value looked up by the run; a missing
key is a failure. The fuel is always instantiated with the list length. -/
def fillUrlAux : Nat → List (String × PyVal) → List Char → Except CallErr (List Char)
  | 0, _, cs => .ok cs
  | _ + 1, _, [] => .ok []
  | f + 1, kw, ':' :: rest =>
    (match rest with
     | c :: rest' =>
       if c = '/' then (fillUrlAux f kw rest).map (fun t => ':' :: t)
       else
         let run := (c :: rest').takeWhile (fun d => d ≠ '/')
         let rem := (c :: rest').dropWhile (fun d => d ≠ '/')
         match alookup kw (String.mk run) with
         | some v => (fillUrlAux f kw rem).map (fun t => v.pyStr.data ++ t)
         | Option.none => .error (.fillKeyError (String.mk run))
     | [] => .ok [':'])
  | f + 1, kw, c :: rest => (fillUrlAux f kw rest).map (fun t => c :: t)

/-- Resource._fill_url on a url template, given the function locals and the
url parameter list of the descriptor. -/
def fillUrl (url : String) (params : List String) (sigNames : List String)
    (args : String → Option PyVal) : Except CallErr String :=
  match buildFillKwargs params sigNames args with
  | .error e => .error e
  | .ok kw => (fillUrlAux url.data.length kw url.data).map String.mk

/-- request mapping built by the generated body: the arguments with truthy
values, in signature order, keyed by their original api names. -/
def kwList (url : String) (declared : List Param)
    (args : String → Option PyVal) : List (String × PyVal) :=
  (orderedParams url declared).filterMap
    (fun p =>
      if ((args (localName p.name)).getD .none).truthy then
        some (p.name, (args (localName p.name)).getD .none)
      else Option.none)

/-- method api descriptor: one api variant of one method of a declaring
resource, holding the fields the pipeline reads. The resolved resource and
the callable name are derived from the url below, as in the constructor. -/
structure MethodAPIDescription where
  apipie_resource : String
  methodName : String
  params : List Param
  url : String
  http_method : String
deriving DecidableEq

/-- owning resource of a descriptor, resolved purely from its url. -/
def MethodAPIDescription.resource (m : MethodAPIDescription) : String :=
  resourceOfUrl m.url

/-- callable name of a descriptor. -/
def MethodAPIDescription.name (m : MethodAPIDescription) : String :=
  getName m.url m.methodName m.apipie_resource

/-- verb, filled url and request mapping handed to the transport primitive
by one invocation of a generated function. -/
structure Dispatch where
  verb : String
  url : String
  kwargs : List (String × PyVal)
deriving DecidableEq

/-- call-time behaviour of the function produced by generate_func: the
interpreter first rejects a call that leaves a required signature parameter
without a value, then _fill_url substitutes the url template, then the
truthy arguments are collected under their original names and the result is
handed to the verb primitive selected by the lowercased http method. -/
def callGenerated (desc : MethodAPIDescription)
    (args : String → Option PyVal) : Except CallErr Dispatch :=
  match (signatureOf desc.url desc.params).find? (fun nr => nr.2 && (args nr.1).isNone) with
  | some nr => .error (.missingRequiredArg nr.1)
  | Option.none =>
    match fillUrl desc.url (urlParams desc.url)
        ((signatureOf desc.url desc.params).map (fun nr => nr.1)) args with
    | .error e => .error e
    | .ok u =>
      .ok ⟨pyLower desc.http_method, u, kwList desc.url desc.params args⟩

/-- result of processing one http response in _process_request_result. -/
inductive ReqResult where
  | emptyList
  | jsonVal (j : String)
  | textVal (s : String)
deriving DecidableEq

/-- invocation of a generated function against a transport collaborator:
the return value of the verb primitive is returned unchanged. -/
def invokeWith (t : String → String → List (String × PyVal) → ReqResult)
    (desc : MethodAPIDescription) (args : String → Option PyVal) :
    Except CallErr ReqResult :=
  (callGenerated desc args).map (fun d => t d.verb d.url d.kwargs)

/-- http response as read by res_to_str and _process_request_result: the
request url, the request headers as an ordered mapping, the request body,
the rendered response headers, the status code, the reason, the body text
and the parsed json body when the body parses (absence models the parse
failure). -/
structure Resp where
  url : String
  requestHeaders : List (String × String)
  requestBody : String
  respHeaders : String
  status_code : Nat
  reason : String
  text : String
  json : Option String
deriving DecidableEq

/-- header masking step of res_to_str: an Authorization entry present in
the request headers is overwritten with the fixed mask. -/
def maskAuth (hs : List (String × String)) : List (String × String) :=
  if (alookup hs "Authorization").isSome then aset hs "Authorization" "*****" else hs

/-- canonical rendering of a header mapping; the exact python dict repr
punctuation is immaterial to every claim, only which keys and values appear
matters. -/
def strHeaders (hs : List (String × String)) : String :=
  "\x7b" ++ String.intercalate ", " (hs.map (fun kv => kv.1 ++ ": " ++ kv.2)) ++ "\x7d"

/-- the response with the Authorization request header masked, which is the
observable effect res_to_str leaves on the response it renders. -/
def maskRequestAuth (res : Resp) : Resp :=
  { res with requestHeaders := maskAuth res.requestHeaders }

/-- res_to_str: the Authorization request header is masked and an
informative multi-line string is assembled from the request and response
fields. -/
def resToStr (res : Resp) : String :=
  let hs := maskAuth res.requestHeaders
  "\n####################################\nurl = " ++ res.url ++
  "\nheaders = " ++ strHeaders hs ++
  "\n-------- data sent -----------------\n" ++ res.requestBody ++
  "\n------------------------------------\n@@@@@ response @@@@@@@@@@@@@@@@\nheaders = " ++
  res.respHeaders ++
  "\ncode = " ++ toString res.status_code ++
  "\nreason = " ++ res.reason ++
  "\n--------- data received ------------\n" ++ res.text ++
  "\n------------------------------------\n####################################\n"

/-- failures raised by _process_request_result: the not acceptable failure
carrying the response, and the generic failure carrying the response and
the diagnostic message. -/
inductive FErr where
  | unacceptable (res : Resp)
  | foreman (res : Resp) (msg : String)
deriving DecidableEq

/-- Foreman._process_request_result: a status outside the 2xx range yields
the empty list for 404, the not acceptable failure for 406, and otherwise
the generic failure whose message embeds the diagnostic rendering and whose
attached response carries the masking side effect of that rendering; a 2xx
status yields the parsed json body, or the body text when parsing fails. -/
def processRequestResult (res : Resp) : Except FErr ReqResult :=
  if res.status_code < 200 ∨ 300 ≤ res.status_code then
    if res.status_code = 404 then .ok .emptyList
    else if res.status_code = 406 then .error (.unacceptable res)
    else .error (.foreman (maskRequestAuth res)
      ("Something went wrong:" ++ resToStr res))
  else
    match res.json with
    | some j => .ok (.jsonVal j)
    | Option.none => .ok (.textVal res.text)

/-- one api variant entry of the raw definition document. -/
structure ApiDef where
  api_url : String
  http_method : String
  short_description : String
deriving DecidableEq

/-- one method entry of the raw definition document. -/
structure MethodDef where
  name : String
  params : List Param
  apis : List ApiDef
deriving DecidableEq

/-- one resource entry of the raw definition document. The full description
only feeds the docstring, which no claim concerns, so it stays abstract. -/
structure ResourceDef where
  full_description : String
  methods : List MethodDef
deriving DecidableEq

/-- descriptor constructed in parse_resource_definition for one api of one
method of a resource. -/
def toAPI (resource_name : String) (m : MethodDef) (a : ApiDef) : MethodAPIDescription :=
  ⟨resource_name, m.name, m.params, a.api_url, a.http_method⟩

/-- the descriptors of a resource in processing order: methods in
declaration order, apis of each method in declaration order. -/
def apiStream (resource_name : String) (rdef : ResourceDef) : List MethodAPIDescription :=
  (rdef.methods.map (fun m => m.apis.map (toAPI resource_name m))).flatten

/-- state accumulated by parse_resource_definition: the names bound so far,
the bound functions of the dict under construction keyed by name, the
conflict list, and the pending foreign methods bucketed by owning
resource. The docstring bookkeeping of the source is omitted since no
claim concerns it. -/
structure ParseState where
  own_methods : List String
  funcs : List (String × MethodAPIDescription)
  conflicting : List MethodAPIDescription
  foreigns : List (String × List (String × MethodAPIDescription))
deriving DecidableEq

/-- treatment of one descriptor in parse_resource_definition: a descriptor
whose resolved resource differs from the declaring one goes to the bucket
of its resolved resource unless that bucket already holds its name, in
which case it joins the conflict list; a descriptor of the declaring
resource is bound unless its name was already bound, in which case it joins
the conflict list. -/
def processApi (resource_name : String) (st : ParseState)
    (api : MethodAPIDescription) : ParseState :=
  if api.resource ≠ resource_name then
    if (alookup ((alookup st.foreigns api.resource).getD []) api.name).isSome then
      { st with conflicting := st.conflicting ++ [api] }
    else
      { st with
          foreigns :=
            aset st.foreigns api.resource
              ((alookup st.foreigns api.resource).getD [] ++ [(api.name, api)]) }
  else
    if api.name ∈ st.own_methods then
      { st with conflicting := st.conflicting ++ [api] }
    else
      { st with own_methods := st.own_methods ++ [api.name],
                funcs := st.funcs ++ [(api.name, api)] }

/-- parse_resource_definition over the descriptor stream of one resource. -/
def parseResourceDefinition (resource_name : String) (rdef : ResourceDef) : ParseState :=
  (apiStream resource_name rdef).foldl (processApi resource_name) ⟨[], [], [], []⟩

/-- entry of the resource table built by _generate_api_defs. A fully parsed
resource carries the metadata keys of its class dict; an entry first
created to receive foreign methods carries only the own-methods set. The
merge into an existing entry drops the parsed metadata: keys that start
with an underscore are skipped and the own-methods union result is
discarded, both faithful to the source. -/
structure ResEntry where
  hasMeta : Bool
  own_methods : List String
  funcs : List (String × MethodAPIDescription)
  conflicting : List MethodAPIDescription
deriving DecidableEq

/-- metadata keys present in a fully parsed resource dict. -/
def metaNames : List String :=
  ["__module__", "__doc__", "_resource_name", "_own_methods", "_conflicting_methods"]

/-- names bound in an entry. -/
def funcsKeys (e : ResEntry) : List String := e.funcs.map (fun kv => kv.1)

/-- dict keys of an entry, as tested by the membership checks of the two
merge loops in _generate_api_defs. -/
def entryKeys (e : ResEntry) : List String :=
  funcsKeys e ++ (if e.hasMeta then metaNames else ["_own_methods"])

/-- empty entry created by the setdefault call for a foreign resource. -/
def emptyEntry : ResEntry := ⟨false, [], [], []⟩

/-- treatment of one parsed binding when it is merged into an existing
entry of the same resource name: the binding is skipped when its key
already exists, otherwise it is appended; the own-methods union of the
source discards its result, so the own-methods set is left unchanged. -/
def mergeStep (e : ResEntry) (kv : String × MethodAPIDescription) : ResEntry :=
  if kv.1 ∈ entryKeys e then e else { e with funcs := e.funcs ++ [kv] }

/-- merge of a freshly parsed resource into an existing entry of the same
name: only the bound method keys are considered; the parsed metadata,
conflict list included, is dropped because underscore keys are skipped. -/
def mergeParsedInto (old : ResEntry) (newFuncs : List (String × MethodAPIDescription)) :
    ResEntry :=
  newFuncs.foldl mergeStep old

/-- treatment of one pending foreign method when its bucket is merged: the
method is added and recorded as an own method unless its key already
exists, in which case a warning is logged and the method is skipped. -/
def bucketStep (e : ResEntry) (kv : String × MethodAPIDescription) : ResEntry :=
  if kv.1 ∈ entryKeys e then e
  else { e with funcs := e.funcs ++ [kv], own_methods := e.own_methods ++ [kv.1] }

/-- merge of one pending foreign bucket into the entry of its resource. -/
def bucketMerge (e : ResEntry) (bucket : List (String × MethodAPIDescription)) : ResEntry :=
  bucket.foldl bucketStep e

/-- treatment of one pending foreign bucket in _generate_api_defs: the
entry of the bucket resource is fetched, created empty on demand, and the
bucket is merged into it. -/
def foreignStep (st : List (String × ResEntry))
    (fb : String × List (String × MethodAPIDescription)) : List (String × ResEntry) :=
  aset st fb.1 (bucketMerge ((alookup st fb.1).getD emptyEntry) fb.2)

/-- processing of one resource of the document in _generate_api_defs: the
resource is parsed under its lowercased name, the parsed bindings are
stored under the original name, merging when an entry of that name already
exists, and then every pending foreign bucket is merged into the entry of
its resource. -/
def processResource (st : List (String × ResEntry)) (x : String × ResourceDef) :
    List (String × ResEntry) :=
  (parseResourceDefinition (pyLower x.1) x.2).foreigns.foldl foreignStep
    (match alookup st x.1 with
     | some old =>
       aset st x.1 (mergeParsedInto old (parseResourceDefinition (pyLower x.1) x.2).funcs)
     | Option.none =>
       st ++ [(x.1,
         ⟨true, (parseResourceDefinition (pyLower x.1) x.2).own_methods,
           (parseResourceDefinition (pyLower x.1) x.2).funcs,
           (parseResourceDefinition (pyLower x.1) x.2).conflicting⟩)])

/-- Foreman._generate_api_defs over a definition document, given as the
resource entries in iteration order. -/
def generateApiDefs (d : List (String × ResourceDef)) : List (String × ResEntry) :=
  d.foldl processResource []

/-- resources actually instantiated and attached to the client: an entry
with an empty own-methods set is skipped. -/
def builtResources (d : List (String × ResourceDef)) : List (String × ResEntry) :=
  (generateApiDefs d).filter (fun ke => !ke.2.own_methods.isEmpty)

/-- predicate written from the words of the spec, for comparison with the
truthiness test of the source: a value is empty or absent when it is the
absent marker None or an empty string. -/
def specEmptyOrAbsent : PyVal → Bool
  | .none => true
  | .str s => s = ""
  | _ => false

section AssocLemmas

variable {α : Type}

theorem alookup_append (l1 l2 : List (String × α)) (n : String) :
    alookup (l1 ++ l2) n =
      match alookup l1 n with
      | some v => some v
      | Option.none => alookup l2 n := by
  induction l1 with
  | nil => simp [alookup]
  | cons kv t ih =>
    obtain ⟨k, v⟩ := kv
    by_cases hk : k = n
    · simp [alookup, hk]
    · simp [alookup, hk, ih]

theorem alookup_append_left (l1 l2 : List (String × α)) (n : String) (v : α)
    (h : alookup l1 n = some v) : alookup (l1 ++ l2) n = some v := by
  rw [alookup_append, h]

theorem alookup_eq_none (l : List (String × α)) (n : String)
    (h : n ∉ l.map (fun kv => kv.1)) : alookup l n = Option.none := by
  induction l with
  | nil => rfl
  | cons kv t ih =>
    obtain ⟨k, v⟩ := kv
    simp only [List.map_cons, List.mem_cons] at h
    push_neg at h
    have hk : ¬ k = n := fun hh => h.1 hh.symm
    simp [alookup, hk, ih h.2]

theorem alookup_mem (l : List (String × α)) (n : String) (v : α)
    (h : alookup l n = some v) : (n, v) ∈ l := by
  induction l with
  | nil => simp [alookup] at h
  | cons kv t ih =>
    obtain ⟨k, w⟩ := kv
    by_cases hk : k = n
    · subst hk
      simp [alookup] at h
      simp [h]
    · simp [alookup, hk] at h
      exact List.mem_cons_of_mem _ (ih h)

theorem alookup_isSome_of_mem_keys (l : List (String × α)) (n : String)
    (h : n ∈ l.map (fun kv => kv.1)) : (alookup l n).isSome := by
  induction l with
  | nil => simp at h
  | cons kv t ih =>
    obtain ⟨k, v⟩ := kv
    by_cases hk : k = n
    · simp [alookup, hk]
    · simp only [List.map_cons, List.mem_cons] at h
      rcases h with h1 | h2
      · exact absurd h1.symm hk
      · simp [alookup, hk, ih h2]

theorem alookup_aset_self (l : List (String × α)) (k : String) (v : α) :
    alookup (aset l k v) k = some v := by
  induction l with
  | nil => simp [aset, alookup]
  | cons kv t ih =>
    obtain ⟨k', v'⟩ := kv
    by_cases hk : k' = k
    · simp [aset, hk, alookup]
    · simp [aset, hk, alookup, ih]

theorem alookup_aset_ne (l : List (String × α)) (k n : String) (v : α)
    (h : n ≠ k) : alookup (aset l k v) n = alookup l n := by
  have hkn : ¬ k = n := fun hh => h hh.symm
  induction l with
  | nil => simp [aset, alookup, hkn]
  | cons kv t ih =>
    obtain ⟨k', v'⟩ := kv
    by_cases hk : k' = k
    · subst hk
      simp [aset, alookup, hkn]
    · simp [aset, hk, alookup, ih]

theorem mem_aset (l : List (String × α)) (k : String) (v : α) (x : String × α)
    (hx : x ∈ aset l k v) : x ∈ l ∨ x = (k, v) := by
  induction l with
  | nil => simp [aset] at hx; simp [hx]
  | cons kv t ih =>
    obtain ⟨k', v'⟩ := kv
    by_cases hk : k' = k
    · simp only [aset, if_pos hk] at hx
      rcases List.mem_cons.mp hx with h1 | h2
      · right; exact h1
      · left; exact List.mem_cons_of_mem _ h2
    · simp only [aset, if_neg hk] at hx
      rcases List.mem_cons.mp hx with h1 | h2
      · left; simp [h1]
      · rcases ih h2 with h3 | h4
        · left; exact List.mem_cons_of_mem _ h3
        · right; exact h4

theorem aset_aset (l : List (String × α)) (k : String) (a b : α) :
    aset (aset l k a) k b = aset l k b := by
  induction l with
  | nil => simp [aset]
  | cons kv t ih =>
    obtain ⟨k', v'⟩ := kv
    by_cases hk : k' = k
    · simp [aset, hk]
    · simp [aset, hk, ih]

end AssocLemmas

/-- C3: the source docstring of _get_name and the spec both promise the
compound names subres_index_subres2 and interfaces_show, but the code
derives myres_id_indexsubres and host_id_showinterfaces: after the slashes
are replaced by underscores, the greedy run of the removal pattern extends
to the end of the string, and the join of the rsplit pieces puts no
underscore between the method name and the final segment. The theorem
evaluates the embedded name derivation at both documented inputs. -/
theorem c3_compound_name_eval :
    getName "/api/myres/:myres_id/subres/:subres_id/subres2" "index" "myres"
        = "myres_id_indexsubres" ∧
    getName "/api/myres/:myres_id/subres/:subres_id/subres2" "index" "myres"
        ≠ "subres_index_subres2" ∧
    getName "/api/hosts/:host_id/interfaces/:id" "show" "hosts"
        = "host_id_showinterfaces" ∧
    getName "/api/hosts/:host_id/interfaces/:id" "show" "hosts"
        ≠ "interfaces_show" := by
  refine ⟨by decide, by decide, by decide, by decide⟩

/-- C9: a url template with at most one positional parameter, that is at
most one colon marker, derives the plain logical method name for an own
method, and a variant whose declaring resource differs from the resource
resolved from the url gets the declaring resource name and an underscore
prepended to the base name. -/
theorem c9_simple_and_foreign_names (url method apipie : String) :
    (countChar ':' url.data ≤ 1 → apipie = resourceOfUrl url →
      getName url method apipie = method) ∧
    (apipie ≠ resourceOfUrl url →
      getName url method apipie = apipie ++ "_" ++ getBaseName url method) := by
  constructor
  · intro h1 h2
    unfold getName getBaseName
    rw [if_pos h2, if_neg (Nat.not_lt.mpr h1)]
  · intro h
    unfold getName
    rw [if_neg h]

/-- C9 witness: a one-parameter own endpoint keeps its method name, and a
foreign endpoint is qualified with the declaring resource name. -/
theorem c9_witness :
    getName "/api/hosts/:id" "show" "hosts" = "show" ∧
    getName "/api/b" "z" "a" = "a_" ++ getBaseName "/api/b" "z" :=
  ⟨(c9_simple_and_foreign_names "/api/hosts/:id" "show" "hosts").1 (by decide) (by decide),
   (c9_simple_and_foreign_names "/api/b" "z" "a").2 (by decide)⟩

/-- the response with the Authorization request header set to a given
credential, the configuration quantified over in the masking claim. -/
def withAuth (r : Resp) (c : String) : Resp :=
  { r with requestHeaders := aset r.requestHeaders "Authorization" c }

theorem maskAuth_aset (hs : List (String × String)) (c : String) :
    maskAuth (aset hs "Authorization" c) = aset hs "Authorization" "*****" := by
  unfold maskAuth
  rw [if_pos (by rw [alookup_aset_self]; rfl), aset_aset]

/-- C10: the diagnostic rendering masks the Authorization request header
with the fixed mask, so two responses that differ only in the credential
render to the identical string, and the rendered header mapping carries the
mask and not the credential. -/
theorem c10_authorization_masked (r : Resp) (c1 c2 : String) :
    resToStr (withAuth r c1) = resToStr (withAuth r c2) ∧
    alookup (maskAuth (withAuth r c1).requestHeaders) "Authorization" = some "*****" := by
  constructor
  · unfold resToStr withAuth
    simp only [maskAuth_aset]
  · unfold withAuth
    simp only [maskAuth_aset]
    rw [alookup_aset_self]

/-- C5: result processing by status code: 404 yields the empty list rather
than a failure, 406 raises the not acceptable failure, every other status
outside the 2xx range raises the generic failure with the response attached
(after the masking side effect of rendering its diagnostics), and every
2xx status returns a value to the caller without failing. -/
theorem c5_status_code_handling (res : Resp) :
    (res.status_code = 404 → processRequestResult res = .ok .emptyList) ∧
    (res.status_code = 406 → processRequestResult res = .error (.unacceptable res)) ∧
    ((res.status_code < 200 ∨ 300 ≤ res.status_code) → res.status_code ≠ 404 →
      res.status_code ≠ 406 →
      processRequestResult res =
        .error (.foreman (maskRequestAuth res) ("Something went wrong:" ++ resToStr res))) ∧
    (200 ≤ res.status_code → res.status_code < 300 →
      ∃ v, processRequestResult res = .ok v) := by
  refine ⟨?_, ?_, ?_, ?_⟩
  · intro h
    simp [processRequestResult, h]
  · intro h
    simp [processRequestResult, h]
  · intro hr h4 h6
    unfold processRequestResult
    rw [if_pos hr, if_neg h4, if_neg h6]
  · intro h2 h3
    have hc : ¬(res.status_code < 200 ∨ 300 ≤ res.status_code) := by omega
    unfold processRequestResult
    rw [if_neg hc]
    cases hj : res.json with
    | none => exact ⟨.textVal res.text, rfl⟩
    | some j => exact ⟨.jsonVal j, rfl⟩

/-- concrete response used to instantiate the status handling claim. -/
def sampleResp (c : Nat) : Resp :=
  ⟨"u", [("Authorization", "secret")], "", "h", c, "r", "t", some "j"⟩

/-- C5 witness: the four status clauses instantiated at 404, 406, 500
and 200. -/
theorem c5_witness :
    processRequestResult (sampleResp 404) = .ok .emptyList ∧
    processRequestResult (sampleResp 406) = .error (.unacceptable (sampleResp 406)) ∧
    processRequestResult (sampleResp 500) =
      .error (.foreman (maskRequestAuth (sampleResp 500))
        ("Something went wrong:" ++ resToStr (sampleResp 500))) ∧
    ∃ v, processRequestResult (sampleResp 200) = .ok v :=
  ⟨(c5_status_code_handling (sampleResp 404)).1 rfl,
   (c5_status_code_handling (sampleResp 406)).2.1 rfl,
   (c5_status_code_handling (sampleResp 500)).2.2.1 (by decide) (by decide) (by decide),
   (c5_status_code_handling (sampleResp 200)).2.2.2 (by decide) (by decide)⟩

section ParamLemmas

/-- names are unchanged by a map that preserves the name field. -/
theorem map_name_invariant (ps : List Param) (f : Param → Param)
    (hf : ∀ p, (f p).name = p.name) :
    (ps.map f).map (fun p => p.name) = ps.map (fun p => p.name) := by
  induction ps with
  | nil => rfl
  | cons p t ih => simp [hf, ih]

theorem names_addUrlParam (ps : List Param) (n : String) :
    (addUrlParam ps n).map (fun p => p.name) = ps.map (fun p => p.name) ∨
    (addUrlParam ps n).map (fun p => p.name) = ps.map (fun p => p.name) ++ [n] := by
  unfold addUrlParam
  split
  · left
    apply map_name_invariant
    intro p
    by_cases hp : p.name = n <;> simp [hp]
  · right
    simp

/-- an entry with a given name and a true required flag survives the
treatment of any further url parameter. -/
theorem addUrlParam_keeps_required (ps : List Param) (m p : String)
    (h : ∃ q ∈ ps, q.name = p ∧ q.required = true) :
    ∃ q ∈ addUrlParam ps m, q.name = p ∧ q.required = true := by
  obtain ⟨q, hq, hname, hreq⟩ := h
  unfold addUrlParam
  split
  · refine ⟨if q.name = m then { q with required := true } else q, List.mem_map_of_mem _ hq, ?_⟩
    by_cases hm : q.name = m
    · rw [if_pos hm]
      exact ⟨hname, rfl⟩
    · rw [if_neg hm]
      exact ⟨hname, hreq⟩
  · exact ⟨q, List.mem_append_left _ hq, hname, hreq⟩

/-- treating a url parameter leaves an entry with its name and a true
required flag. -/
theorem addUrlParam_self_required (ps : List Param) (p : String) :
    ∃ q ∈ addUrlParam ps p, q.name = p ∧ q.required = true := by
  unfold addUrlParam
  split
  · rename_i hany
    obtain ⟨x, hx, hname⟩ := List.any_eq_true.mp hany
    refine ⟨{ x with required := true }, ?_, by simpa using hname, rfl⟩
    have : (if x.name = p then { x with required := true } else x) = { x with required := true } := by
      simp [of_decide_eq_true hname]
    exact this ▸ List.mem_map_of_mem _ hx
  · exact ⟨⟨p, true, "", ""⟩, List.mem_append_right _ (by simp), rfl, rfl⟩

theorem foldl_addUrlParam_keeps_required (l : List String) (ps : List Param) (p : String)
    (h : ∃ q ∈ ps, q.name = p ∧ q.required = true) :
    ∃ q ∈ l.foldl addUrlParam ps, q.name = p ∧ q.required = true := by
  induction l generalizing ps with
  | nil => exact h
  | cons m t ih => exact ih _ (addUrlParam_keeps_required _ _ _ h)

theorem foldl_addUrlParam_url_required (l : List String) (acc : List Param) (p : String) :
    p ∈ l → ∃ q ∈ l.foldl addUrlParam acc, q.name = p ∧ q.required = true := by
  induction l generalizing acc with
  | nil =>
    intro hp
    simp at hp
  | cons m t ih =>
    intro hp
    rcases List.mem_cons.mp hp with rfl | hmem
    · exact foldl_addUrlParam_keeps_required t (addUrlParam acc p) p (addUrlParam_self_required acc p)
    · exact ih (addUrlParam acc m) hmem

/-- every url parameter of the template owns a required entry of the
merged parameter dict. -/
theorem mergedParams_url_required (url : String) (declared : List Param) (p : String)
    (hp : p ∈ urlParams url) :
    ∃ q ∈ mergedParams url declared, q.name = p ∧ q.required = true :=
  foldl_addUrlParam_url_required (urlParams url) (declared.foldl insertParam []) p hp

/-- required merged entries appear in the signature-ordered list. -/
theorem mem_orderedParams_of_required (url : String) (declared : List Param) (q : Param)
    (hq : q ∈ mergedParams url declared) (hreq : q.required = true) :
    q ∈ orderedParams url declared := by
  unfold orderedParams
  exact List.mem_append_left _ (List.mem_filter.mpr ⟨hq, by simp [hreq]⟩)

/-- membership in the ordered parameter list coincides with membership in
the merged dict. -/
theorem mem_orderedParams_iff (url : String) (declared : List Param) (q : Param) :
    q ∈ orderedParams url declared ↔ q ∈ mergedParams url declared := by
  unfold orderedParams
  exact (List.filter_append_perm _ _).mem_iff

theorem find_missing_some (sig : List (String × Bool)) (args : String → Option PyVal)
    (x : String × Bool) (hx : x ∈ sig) (hreq : x.2 = true) (hnone : args x.1 = Option.none) :
    ∃ y, sig.find? (fun nr => nr.2 && (args nr.1).isNone) = some y := by
  rw [← Option.isSome_iff_exists]
  rw [List.find?_isSome]
  exact ⟨x, hx, by simp [hreq, hnone]⟩

/-- C4: every positional parameter of the url template appears in the
generated signature as a required parameter under its local name, and a
call that supplies no value for it fails with the missing required
argument failure, the error kind the spec calls the template fill failure. -/
theorem c4_url_params_required (desc : MethodAPIDescription) (p : String)
    (hp : p ∈ urlParams desc.url) :
    (localName p, true) ∈ signatureOf desc.url desc.params ∧
    ∀ args : String → Option PyVal, args (localName p) = Option.none →
      ∃ n, callGenerated desc args = .error (.missingRequiredArg n) := by
  obtain ⟨q, hq, hname, hreq⟩ := mergedParams_url_required desc.url desc.params p hp
  have hsig : (localName p, true) ∈ signatureOf desc.url desc.params := by
    unfold signatureOf
    refine List.mem_map.mpr ⟨q, mem_orderedParams_of_required desc.url desc.params q hq hreq, ?_⟩
    simp [hname, hreq]
  refine ⟨hsig, fun args hargs => ?_⟩
  obtain ⟨y, hy⟩ := find_missing_some (signatureOf desc.url desc.params) args
    (localName p, true) hsig rfl hargs
  exact ⟨y.1, by simp only [callGenerated, hy]⟩

/-- concrete descriptor with the parameter id embedded in the url and
declared optional, used to instantiate the url parameter claim. -/
def c4Desc : MethodAPIDescription :=
  ⟨"hosts", "show", [⟨"id", false, "", ""⟩], "/api/hosts/:id", "GET"⟩

/-- C4 witness: the id parameter is required in the signature and an
invocation without it fails. -/
theorem c4_witness :
    ("id", true) ∈ signatureOf c4Desc.url c4Desc.params ∧
    ∃ n, callGenerated c4Desc (fun _ => Option.none) = .error (.missingRequiredArg n) := by
  have h := c4_url_params_required c4Desc "id" (by decide)
  exact ⟨h.1, h.2 (fun _ => Option.none) rfl⟩

theorem names_insertParam (ps : List Param) (p : Param) :
    (insertParam ps p).map (fun q => q.name) = ps.map (fun q => q.name) ∨
    (insertParam ps p).map (fun q => q.name) = ps.map (fun q => q.name) ++ [p.name] := by
  unfold insertParam
  split
  · left
    apply map_name_invariant
    intro q
    by_cases hq : q.name = p.name <;> simp [hq]
  · right
    simp

theorem nodup_names_insertParam (ps : List Param) (p : Param)
    (h : (ps.map (fun q => q.name)).Nodup) :
    ((insertParam ps p).map (fun q => q.name)).Nodup := by
  unfold insertParam
  split
  · rw [map_name_invariant]
    · exact h
    · intro q
      by_cases hq : q.name = p.name <;> simp [hq]
  · rename_i hany
    have hp : p.name ∉ ps.map (fun q => q.name) := by
      intro hmem
      obtain ⟨q, hq, hname⟩ := List.mem_map.mp hmem
      exact hany (List.any_eq_true.mpr ⟨q, hq, by simp [hname]⟩)
    simp [List.nodup_append, hp, h]

theorem nodup_names_addUrlParam (ps : List Param) (n : String)
    (h : (ps.map (fun q => q.name)).Nodup) :
    ((addUrlParam ps n).map (fun q => q.name)).Nodup := by
  unfold addUrlParam
  split
  · rw [map_name_invariant]
    · exact h
    · intro q
      by_cases hq : q.name = n <;> simp [hq]
  · rename_i hany
    have hp : n ∉ ps.map (fun q => q.name) := by
      intro hmem
      obtain ⟨q, hq, hname⟩ := List.mem_map.mp hmem
      exact hany (List.any_eq_true.mpr ⟨q, hq, by simp [hname]⟩)
    simp [List.nodup_append, hp, h]

theorem nodup_names_insert_fold (declared : List Param) (acc : List Param)
    (h : (acc.map (fun q => q.name)).Nodup) :
    ((declared.foldl insertParam acc).map (fun q => q.name)).Nodup := by
  induction declared generalizing acc with
  | nil => exact h
  | cons p t ih => exact ih _ (nodup_names_insertParam _ _ h)

theorem nodup_names_addUrl_fold (l : List String) (acc : List Param)
    (h : (acc.map (fun q => q.name)).Nodup) :
    ((l.foldl addUrlParam acc).map (fun q => q.name)).Nodup := by
  induction l generalizing acc with
  | nil => exact h
  | cons m t ih => exact ih _ (nodup_names_addUrlParam _ _ h)

/-- the merged parameter dict has pairwise distinct names. -/
theorem nodup_names_mergedParams (url : String) (declared : List Param) :
    ((mergedParams url declared).map (fun q => q.name)).Nodup :=
  nodup_names_addUrl_fold _ _ (nodup_names_insert_fold declared [] List.nodup_nil)

/-- the signature-ordered parameter list has pairwise distinct names. -/
theorem nodup_names_orderedParams (url : String) (declared : List Param) :
    ((orderedParams url declared).map (fun q => q.name)).Nodup := by
  have hperm : List.Perm ((orderedParams url declared).map (fun q => q.name))
      ((mergedParams url declared).map (fun q => q.name)) :=
    (List.filter_append_perm _ _).map _
  exact hperm.nodup_iff.mpr (nodup_names_mergedParams url declared)

theorem names_foldl_insertParam_subset (declared : List Param) (acc : List Param) :
    ∀ x ∈ (declared.foldl insertParam acc).map (fun q => q.name),
      x ∈ acc.map (fun q => q.name) ∨ x ∈ declared.map (fun q => q.name) := by
  induction declared generalizing acc with
  | nil =>
    intro x hx
    exact Or.inl hx
  | cons p t ih =>
    intro x hx
    rcases ih (insertParam acc p) x hx with h1 | h2
    · rcases names_insertParam acc p with he | he
      · rw [he] at h1
        exact Or.inl h1
      · rw [he] at h1
        rcases List.mem_append.mp h1 with h3 | h4
        · exact Or.inl h3
        · right
          simp at h4
          simp [h4]
    · right
      exact List.mem_cons_of_mem _ h2

theorem synth_mem_addUrlParam_self (acc : List Param) (p : String)
    (h : p ∉ acc.map (fun q => q.name)) :
    (⟨p, true, "", ""⟩ : Param) ∈ addUrlParam acc p := by
  have hany : ¬ acc.any (fun q => q.name = p) = true := by
    intro ha
    obtain ⟨q, hq, hname⟩ := List.any_eq_true.mp ha
    exact h (List.mem_map.mpr ⟨q, hq, of_decide_eq_true hname⟩)
  unfold addUrlParam
  rw [if_neg hany]
  exact List.mem_append_right _ (by simp)

theorem synth_mem_addUrlParam (acc : List Param) (m p : String)
    (h : (⟨p, true, "", ""⟩ : Param) ∈ acc) :
    (⟨p, true, "", ""⟩ : Param) ∈ addUrlParam acc m := by
  unfold addUrlParam
  split
  · have himg :
        (if (⟨p, true, "", ""⟩ : Param).name = m then
          { (⟨p, true, "", ""⟩ : Param) with required := true }
        else (⟨p, true, "", ""⟩ : Param)) = (⟨p, true, "", ""⟩ : Param) := by
      by_cases hm : p = m <;> simp [hm]
    exact himg ▸ List.mem_map_of_mem _ h
  · exact List.mem_append_left _ h

theorem synth_mem_foldl_keeps (l : List String) (acc : List Param) (p : String)
    (h : (⟨p, true, "", ""⟩ : Param) ∈ acc) :
    (⟨p, true, "", ""⟩ : Param) ∈ l.foldl addUrlParam acc := by
  induction l generalizing acc with
  | nil => exact h
  | cons m t ih => exact ih _ (synth_mem_addUrlParam _ _ _ h)

theorem synth_mem_foldl (l : List String) (acc : List Param) (p : String) :
    p ∈ l → p ∉ acc.map (fun q => q.name) →
      (⟨p, true, "", ""⟩ : Param) ∈ l.foldl addUrlParam acc := by
  induction l generalizing acc with
  | nil =>
    intro hp _
    simp at hp
  | cons m t ih =>
    intro hp hacc
    by_cases hm : p = m
    · subst hm
      exact synth_mem_foldl_keeps t _ p (synth_mem_addUrlParam_self acc p hacc)
    · have hmem : p ∈ t := by
        rcases List.mem_cons.mp hp with h1 | h2
        · exact absurd h1 hm
        · exact h2
      have hnames : p ∉ (addUrlParam acc m).map (fun q => q.name) := by
        rcases names_addUrlParam acc m with he | he <;> rw [he]
        · exact hacc
        · intro hx
          rcases List.mem_append.mp hx with h1 | h2
          · exact hacc h1
          · simp at h2
            exact hm h2
      exact ih (addUrlParam acc m) hmem hnames

theorem pairwise_of_all_required (l : List Param) (h : ∀ x ∈ l, x.required = true) :
    List.Pairwise (fun a b => a.required = false → b.required = false) l := by
  induction l with
  | nil => exact List.Pairwise.nil
  | cons a t ih =>
    refine List.Pairwise.cons ?_ (ih fun x hx => h x (List.mem_cons_of_mem _ hx))
    intro b _ hfa
    simp [h a (List.mem_cons_self a t)] at hfa

theorem pairwise_of_all_optional (l : List Param) (h : ∀ x ∈ l, x.required = false) :
    List.Pairwise (fun a b => a.required = false → b.required = false) l := by
  induction l with
  | nil => exact List.Pairwise.nil
  | cons a t ih =>
    refine List.Pairwise.cons ?_ (ih fun x hx => h x (List.mem_cons_of_mem _ hx))
    intro b hb _
    exact h b (List.mem_cons_of_mem _ hb)

/-- C8: every positional url parameter appears in the ordered signature
parameter list as a required entry, exactly once even if also declared,
synthesized with empty description and validator when not declared at all,
and the list places every required parameter before every optional one. -/
theorem c8_signature_construction (url : String) (declared : List Param) :
    (∀ p, p ∈ urlParams url →
      (∃ q ∈ orderedParams url declared, q.name = p ∧ q.required = true) ∧
      ((orderedParams url declared).map (fun q => q.name)).count p = 1 ∧
      (p ∉ declared.map (fun q => q.name) →
        (⟨p, true, "", ""⟩ : Param) ∈ orderedParams url declared)) ∧
    List.Pairwise (fun a b => a.required = false → b.required = false)
      (orderedParams url declared) := by
  constructor
  · intro p hp
    obtain ⟨q, hq, hname, hreq⟩ := mergedParams_url_required url declared p hp
    have hqo := mem_orderedParams_of_required url declared q hq hreq
    refine ⟨⟨q, hqo, hname, hreq⟩, ?_, ?_⟩
    · exact List.count_eq_one_of_mem (nodup_names_orderedParams url declared)
        (List.mem_map.mpr ⟨q, hqo, hname⟩)
    · intro hdecl
      have hinit : p ∉ (declared.foldl insertParam []).map (fun q => q.name) := by
        intro hx
        rcases names_foldl_insertParam_subset declared [] p hx with h1 | h2
        · simp at h1
        · exact hdecl h2
      exact (mem_orderedParams_iff url declared _).mpr
        (synth_mem_foldl (urlParams url) (declared.foldl insertParam []) p hp hinit)
  · unfold orderedParams
    rw [List.pairwise_append]
    refine ⟨?_, ?_, ?_⟩
    · apply pairwise_of_all_required
      intro x hx
      simpa using (List.mem_filter.mp hx).2
    · apply pairwise_of_all_optional
      intro x hx
      simpa using (List.mem_filter.mp hx).2
    · intro a _ b hb _
      simpa using (List.mem_filter.mp hb).2

/-- C8 witness: with the template /api/hosts/:id and an optional declared
id, the signature holds id once as required; with an undeclared template
parameter, the synthesized required descriptor appears. -/
theorem c8_witness :
    (∃ q ∈ orderedParams "/api/hosts/:id" [⟨"id", false, "d", "v"⟩], q.name = "id" ∧ q.required = true) ∧
    ((orderedParams "/api/hosts/:id" [⟨"id", false, "d", "v"⟩]).map (fun q => q.name)).count "id" = 1 ∧
    (⟨"wk", true, "", ""⟩ : Param) ∈ orderedParams "/api/a/:wk" [] := by
  have h1 := (c8_signature_construction "/api/hosts/:id" [⟨"id", false, "d", "v"⟩]).1 "id" (by decide)
  have h2 := (c8_signature_construction "/api/a/:wk" []).1 "wk" (by decide)
  exact ⟨h1.1, h1.2.1, h2.2.2 (by decide)⟩

theorem kwList_mem_iff (url : String) (declared : List Param)
    (args : String → Option PyVal) (orig : String) (v : PyVal) :
    (orig, v) ∈ kwList url declared args ↔
      ∃ p, p ∈ mergedParams url declared ∧ p.name = orig ∧
        (args (localName p.name)).getD .none = v ∧ v.truthy = true := by
  unfold kwList
  rw [List.mem_filterMap]
  constructor
  · rintro ⟨p, hp, hf⟩
    by_cases ht : ((args (localName p.name)).getD .none).truthy
    · rw [if_pos ht] at hf
      obtain ⟨h1, h2⟩ := Prod.mk.injEq .. ▸ Option.some.inj hf
      exact ⟨p, (mem_orderedParams_iff url declared p).mp hp, h1, h2, h2 ▸ ht⟩
    · rw [if_neg ht] at hf
      cases hf
  · rintro ⟨p, hm, hname, hval, htr⟩
    refine ⟨p, (mem_orderedParams_iff url declared p).mpr hm, ?_⟩
    rw [if_pos (hval ▸ htr), hval, hname]

/-- C7 amended: on a successful invocation the dispatched verb is the
lowercased http method of the variant, the request mapping holds exactly
the parameters whose supplied value is truthy under python truthiness,
keyed by their original api names with the reserved word alias translated
back, and the transport result is returned unchanged. -/
theorem c7_request_mapping_dispatch (desc : MethodAPIDescription)
    (args : String → Option PyVal)
    (_hx : "except_" ∉ (mergedParams desc.url desc.params).map (fun q => q.name))
    (d : Dispatch) (hc : callGenerated desc args = .ok d) :
    d.verb = pyLower desc.http_method ∧
    (∀ orig v, (orig, v) ∈ d.kwargs ↔
      ∃ p, p ∈ mergedParams desc.url desc.params ∧ p.name = orig ∧
        (args (localName p.name)).getD .none = v ∧ v.truthy = true) ∧
    ∀ t, invokeWith t desc args = .ok (t d.verb d.url d.kwargs) := by
  have hres : d.verb = pyLower desc.http_method ∧
      d.kwargs = kwList desc.url desc.params args := by
    unfold callGenerated at hc
    cases hfind : (signatureOf desc.url desc.params).find?
        (fun nr => nr.2 && (args nr.1).isNone) with
    | some nr =>
      rw [hfind] at hc
      cases hc
    | none =>
      rw [hfind] at hc
      cases hfill : fillUrl desc.url (urlParams desc.url)
          ((signatureOf desc.url desc.params).map (fun nr => nr.1)) args with
      | error e =>
        rw [hfill] at hc
        cases hc
      | ok u =>
        rw [hfill] at hc
        cases hc
        exact ⟨rfl, rfl⟩
  refine ⟨hres.1, ?_, ?_⟩
  · intro orig v
    rw [hres.2]
    exact kwList_mem_iff desc.url desc.params args orig v
  · intro t
    unfold invokeWith
    rw [hc]
    rfl

/-- descriptor and arguments of the truthiness counterexample: one optional
integer parameter supplied with the value zero. -/
def c7Desc : MethodAPIDescription :=
  ⟨"hosts", "index", [⟨"count", false, "", ""⟩], "/api/hosts", "GET"⟩

def c7Args : String → Option PyVal :=
  fun n => if n = "count" then some (.int 0) else Option.none

/-- C7 counterexample: the integer zero supplied for the optional count
parameter is neither empty nor absent under the spec wording, yet the
dispatched request mapping is empty, because the generated body keeps only
python-truthy values. -/
theorem c7_counterexample :
    callGenerated c7Desc c7Args = .ok ⟨"get", "/api/hosts", []⟩ ∧
    specEmptyOrAbsent (PyVal.int 0) = false ∧
    c7Args "count" = some (PyVal.int 0) := by
  refine ⟨by decide, by decide, by decide⟩

/-- descriptor and arguments instantiating the amended request mapping
claim, with an aliased reserved word parameter. -/
def c7wDesc : MethodAPIDescription :=
  ⟨"hosts", "index", [⟨"except", false, "", ""⟩, ⟨"label", false, "", ""⟩], "/api/hosts", "GET"⟩

def c7wArgs : String → Option PyVal :=
  fun n => if n = "except_" then some (.str "x") else Option.none

/-- C7 witness: the dispatched mapping carries the aliased parameter under
its original name with its truthy value, the falsy absent parameter is
dropped, and the verb is the lowercased method. -/
theorem c7_witness :
    (⟨"get", "/api/hosts", [("except", PyVal.str "x")]⟩ : Dispatch).verb = pyLower "GET" ∧
    ("except", PyVal.str "x") ∈
      (⟨"get", "/api/hosts", [("except", PyVal.str "x")]⟩ : Dispatch).kwargs := by
  have h := c7_request_mapping_dispatch c7wDesc c7wArgs (by decide)
    ⟨"get", "/api/hosts", [("except", PyVal.str "x")]⟩ (by decide)
  exact ⟨h.1, (h.2.1 "except" (PyVal.str "x")).mpr
    ⟨⟨"except", false, "", ""⟩, by decide, rfl, by decide, by decide⟩⟩

end ParamLemmas

section AssemblerLemmas

theorem processApi_own_eq_keys (rn : String) (st : ParseState) (a : MethodAPIDescription)
    (h : st.own_methods = st.funcs.map (fun kv => kv.1)) :
    (processApi rn st a).own_methods = (processApi rn st a).funcs.map (fun kv => kv.1) := by
  unfold processApi
  repeat' split
  all_goals simp [h]

theorem parse_own_eq_keys (rn : String) (stream : List MethodAPIDescription) (st : ParseState)
    (h : st.own_methods = st.funcs.map (fun kv => kv.1)) :
    (stream.foldl (processApi rn) st).own_methods =
      (stream.foldl (processApi rn) st).funcs.map (fun kv => kv.1) := by
  induction stream generalizing st with
  | nil => exact h
  | cons a t ih => exact ih _ (processApi_own_eq_keys rn st a h)

theorem processApi_funcs_extend (rn : String) (st : ParseState) (a : MethodAPIDescription) :
    ∃ ext, (processApi rn st a).funcs = st.funcs ++ ext := by
  unfold processApi
  repeat' split
  exacts [⟨[], by simp⟩, ⟨[], by simp⟩, ⟨[], by simp⟩, ⟨[(a.name, a)], rfl⟩]

theorem parse_funcs_extend (rn : String) (stream : List MethodAPIDescription) (st : ParseState) :
    ∃ ext, (stream.foldl (processApi rn) st).funcs = st.funcs ++ ext := by
  induction stream generalizing st with
  | nil => exact ⟨[], by simp⟩
  | cons a t ih =>
    obtain ⟨e1, he1⟩ := processApi_funcs_extend rn st a
    obtain ⟨e2, he2⟩ := ih (processApi rn st a)
    exact ⟨e1 ++ e2, by rw [List.foldl_cons, he2, he1, List.append_assoc]⟩

theorem processApi_confl_extend (rn : String) (st : ParseState) (a : MethodAPIDescription) :
    ∃ ext, (processApi rn st a).conflicting = st.conflicting ++ ext := by
  unfold processApi
  repeat' split
  exacts [⟨[a], rfl⟩, ⟨[], by simp⟩, ⟨[a], rfl⟩, ⟨[], by simp⟩]

theorem parse_confl_extend (rn : String) (stream : List MethodAPIDescription) (st : ParseState) :
    ∃ ext, (stream.foldl (processApi rn) st).conflicting = st.conflicting ++ ext := by
  induction stream generalizing st with
  | nil => exact ⟨[], by simp⟩
  | cons a t ih =>
    obtain ⟨e1, he1⟩ := processApi_confl_extend rn st a
    obtain ⟨e2, he2⟩ := ih (processApi rn st a)
    exact ⟨e1 ++ e2, by rw [List.foldl_cons, he2, he1, List.append_assoc]⟩

theorem parse_lookup_stable (rn : String) (stream : List MethodAPIDescription) (st : ParseState)
    (n : String) (v : MethodAPIDescription) (h : alookup st.funcs n = some v) :
    alookup ((stream.foldl (processApi rn) st).funcs) n = some v := by
  obtain ⟨ext, he⟩ := parse_funcs_extend rn stream st
  rw [he]
  exact alookup_append_left _ _ _ _ h

theorem parse_confl_mem (rn : String) (stream : List MethodAPIDescription) (st : ParseState)
    (b : MethodAPIDescription) (h : b ∈ st.conflicting) :
    b ∈ (stream.foldl (processApi rn) st).conflicting := by
  obtain ⟨ext, he⟩ := parse_confl_extend rn stream st
  rw [he]
  exact List.mem_append_left _ h

theorem processApi_own_mono (rn : String) (st : ParseState) (a : MethodAPIDescription)
    (n : String) (h : n ∈ st.own_methods) : n ∈ (processApi rn st a).own_methods := by
  unfold processApi
  repeat' split
  exacts [h, h, h, List.mem_append_left _ h]

theorem parse_laterConflicts (rn : String) (stream : List MethodAPIDescription)
    (st : ParseState) (n : String) (h : n ∈ st.own_methods) :
    ∀ b ∈ stream.filter (fun x => x.resource == rn && x.name == n),
      b ∈ (stream.foldl (processApi rn) st).conflicting := by
  induction stream generalizing st with
  | nil =>
    intro b hb
    simp at hb
  | cons x l ih =>
    intro b hb
    by_cases hx : (x.resource == rn && x.name == n) = true
    · rw [List.filter_cons, if_pos hx] at hb
      obtain ⟨hres, hname⟩ : x.resource = rn ∧ x.name = n := by simpa using hx
      rcases List.mem_cons.mp hb with rfl | hb2
      · have hstep : b ∈ (processApi rn st b).conflicting := by
          unfold processApi
          rw [if_neg (by simp [hres]), if_pos (hname.symm ▸ h)]
          exact List.mem_append_right _ (by simp)
        exact parse_confl_mem rn l _ b hstep
      · exact ih (processApi rn st x) (processApi_own_mono rn st x n h) b hb2
    · rw [List.filter_cons, if_neg hx] at hb
      exact ih (processApi rn st x) (processApi_own_mono rn st x n h) b hb

/-- first definition wins: inside one resource parse, the binding of a name
is the first own descriptor of the stream deriving it, and every later one
joins the conflict list. -/
theorem parse_firstWins (rn : String) (stream : List MethodAPIDescription) (st : ParseState)
    (n : String) (a : MethodAPIDescription) (rest : List MethodAPIDescription)
    (hkeys : st.own_methods = st.funcs.map (fun kv => kv.1))
    (hn : n ∉ st.own_methods) :
    stream.filter (fun x => x.resource == rn && x.name == n) = a :: rest →
    alookup ((stream.foldl (processApi rn) st).funcs) n = some a ∧
    ∀ b ∈ rest, b ∈ (stream.foldl (processApi rn) st).conflicting := by
  induction stream generalizing st with
  | nil =>
    intro hf
    simp at hf
  | cons x l ih =>
    intro hf
    by_cases hx : (x.resource == rn && x.name == n) = true
    · rw [List.filter_cons, if_pos hx] at hf
      rw [List.cons.injEq] at hf
      obtain ⟨rfl, rfl⟩ := hf
      obtain ⟨hres, hname⟩ : x.resource = rn ∧ x.name = n := by simpa using hx
      have hnk : alookup st.funcs n = Option.none := alookup_eq_none _ _ (hkeys ▸ hn)
      have hstep : processApi rn st x =
          { st with own_methods := st.own_methods ++ [x.name],
                    funcs := st.funcs ++ [(x.name, x)] } := by
        unfold processApi
        rw [if_neg (by simp [hres]), if_neg (hname.symm ▸ hn)]
      constructor
      · rw [List.foldl_cons]
        apply parse_lookup_stable
        rw [hstep]
        show alookup (st.funcs ++ [(x.name, x)]) n = some x
        rw [alookup_append, hnk]
        simp [alookup, hname]
      · intro b hb
        apply parse_laterConflicts rn l (processApi rn st x) n _ b hb
        rw [hstep]
        exact List.mem_append_right _ (by simp [hname])
    · rw [List.filter_cons, if_neg hx] at hf
      have hkeys2 := processApi_own_eq_keys rn st x hkeys
      have hn2 : n ∉ (processApi rn st x).own_methods := by
        unfold processApi
        split
        · split
          · exact hn
          · exact hn
        · rename_i hcond
          split
          · exact hn
          · intro hmem
            rcases List.mem_append.mp hmem with h1 | h2
            · exact hn h1
            · simp only [List.mem_singleton] at h2
              apply hx
              have hres2 : x.resource = rn := not_not.mp hcond
              rw [hres2, ← h2]
              simp
      exact ih (processApi rn st x) hkeys2 hn2 hf

theorem processApi_keys_nodup (rn : String) (st : ParseState) (a : MethodAPIDescription)
    (hkeys : st.own_methods = st.funcs.map (fun kv => kv.1))
    (hnd : (st.funcs.map (fun kv => kv.1)).Nodup) :
    ((processApi rn st a).funcs.map (fun kv => kv.1)).Nodup := by
  unfold processApi
  split
  · split <;> exact hnd
  · split
    · exact hnd
    · rename_i hcond hnotown
      have hnot : a.name ∉ st.funcs.map (fun kv => kv.1) := hkeys ▸ hnotown
      show ((st.funcs ++ [(a.name, a)]).map (fun kv => kv.1)).Nodup
      rw [List.map_append]
      exact List.Nodup.append hnd (List.nodup_singleton _)
        (fun y hy hz => by
          simp at hz
          subst hz
          exact hnot hy)

theorem parse_keys_nodup (rn : String) (stream : List MethodAPIDescription) (st : ParseState)
    (hkeys : st.own_methods = st.funcs.map (fun kv => kv.1))
    (hnd : (st.funcs.map (fun kv => kv.1)).Nodup) :
    (((stream.foldl (processApi rn) st).funcs).map (fun kv => kv.1)).Nodup := by
  induction stream generalizing st with
  | nil => exact hnd
  | cons a t ih =>
    exact ih (processApi rn st a) (processApi_own_eq_keys rn st a hkeys)
      (processApi_keys_nodup rn st a hkeys hnd)

theorem processApi_funcs_cases (rn : String) (st : ParseState) (a : MethodAPIDescription)
    (kv : String × MethodAPIDescription) (h : kv ∈ (processApi rn st a).funcs) :
    kv ∈ st.funcs ∨ (kv = (a.name, a) ∧ a.resource = rn) := by
  unfold processApi at h
  split at h
  · split at h <;> exact Or.inl h
  · rename_i hcond
    split at h
    · exact Or.inl h
    · rcases List.mem_append.mp h with h1 | h2
      · exact Or.inl h1
      · simp only [List.mem_singleton] at h2
        exact Or.inr ⟨h2, not_not.mp hcond⟩

theorem parse_funcs_own (rn : String) (stream : List MethodAPIDescription) (st : ParseState)
    (hstream : ∀ x ∈ stream, x.apipie_resource = rn)
    (hst : ∀ kv ∈ st.funcs, kv.2.resource = rn ∧ kv.2.apipie_resource = rn ∧ kv.1 = kv.2.name) :
    ∀ kv ∈ (stream.foldl (processApi rn) st).funcs,
      kv.2.resource = rn ∧ kv.2.apipie_resource = rn ∧ kv.1 = kv.2.name := by
  induction stream generalizing st with
  | nil => exact hst
  | cons x l ih =>
    apply ih (processApi rn st x)
    · intro y hy
      exact hstream y (List.mem_cons_of_mem _ hy)
    · intro kv hkv
      rcases processApi_funcs_cases rn st x kv hkv with h1 | ⟨rfl, hres⟩
      · exact hst kv h1
      · exact ⟨hres, hstream x (List.mem_cons_self x l), rfl⟩

theorem processApi_foreigns_cases (rn : String) (st : ParseState) (a : MethodAPIDescription)
    (fb : String × List (String × MethodAPIDescription))
    (h : fb ∈ (processApi rn st a).foreigns) :
    fb ∈ st.foreigns ∨
      (fb = (a.resource, ((alookup st.foreigns a.resource).getD []) ++ [(a.name, a)]) ∧
        a.resource ≠ rn) := by
  unfold processApi at h
  split at h
  · rename_i hcond
    split at h
    · exact Or.inl h
    · rcases mem_aset _ _ _ _ h with h1 | h2
      · exact Or.inl h1
      · exact Or.inr ⟨h2, hcond⟩
  · split at h <;> exact Or.inl h

/-- shape of the pending foreign buckets: every bucket is keyed by a
resource other than the declaring one, and holds descriptors resolved to
exactly that resource, keyed by their names, declared by this resource. -/
def ForeignsSpec (rn : String)
    (fs : List (String × List (String × MethodAPIDescription))) : Prop :=
  ∀ fb ∈ fs, fb.1 ≠ rn ∧ ∀ kv ∈ fb.2,
    kv.2.resource = fb.1 ∧ kv.1 = kv.2.name ∧ kv.2.apipie_resource = rn

theorem parse_foreigns_spec (rn : String) (stream : List MethodAPIDescription) (st : ParseState)
    (hstream : ∀ x ∈ stream, x.apipie_resource = rn)
    (hst : ForeignsSpec rn st.foreigns) :
    ForeignsSpec rn ((stream.foldl (processApi rn) st).foreigns) := by
  induction stream generalizing st with
  | nil => exact hst
  | cons x l ih =>
    apply ih (processApi rn st x)
    · intro y hy
      exact hstream y (List.mem_cons_of_mem _ hy)
    · intro fb hfb
      rcases processApi_foreigns_cases rn st x fb hfb with h1 | ⟨heq, hne⟩
      · exact hst fb h1
      · subst heq
        refine ⟨hne, ?_⟩
        intro kv hkv
        rcases List.mem_append.mp hkv with hk1 | hk2
        · cases hb : alookup st.foreigns x.resource with
          | none =>
            rw [hb] at hk1
            simp at hk1
          | some bucket =>
            rw [hb] at hk1
            simp only [Option.getD_some] at hk1
            exact (hst _ (alookup_mem _ _ _ hb)).2 kv hk1
        · simp only [List.mem_singleton] at hk2
          subst hk2
          exact ⟨rfl, rfl, hstream x (List.mem_cons_self x l)⟩

theorem processApi_bucket_mono (rn : String) (st : ParseState) (a : MethodAPIDescription)
    (r n : String)
    (h : n ∈ ((alookup st.foreigns r).getD []).map (fun kv => kv.1)) :
    n ∈ ((alookup (processApi rn st a).foreigns r).getD []).map (fun kv => kv.1) := by
  unfold processApi
  split
  · split
    · exact h
    · by_cases hr : r = a.resource
      · subst hr
        rw [alookup_aset_self]
        simp only [Option.getD_some]
        rw [List.map_append]
        exact List.mem_append_left _ h
      · rw [alookup_aset_ne _ _ _ _ hr]
        exact h
  · split <;> exact h

theorem parse_bucket_mono (rn : String) (stream : List MethodAPIDescription) (st : ParseState)
    (r n : String)
    (h : n ∈ ((alookup st.foreigns r).getD []).map (fun kv => kv.1)) :
    n ∈ ((alookup ((stream.foldl (processApi rn) st).foreigns) r).getD []).map
      (fun kv => kv.1) := by
  induction stream generalizing st with
  | nil => exact h
  | cons x l ih => exact ih (processApi rn st x) (processApi_bucket_mono rn st x r n h)

/-- every foreign descriptor of the stream leaves its name among the bucket
keys of its resolved resource. -/
theorem parse_bucket_keys (rn : String) (stream : List MethodAPIDescription) (st : ParseState)
    (api : MethodAPIDescription) (hmem : api ∈ stream) (hfor : api.resource ≠ rn) :
    api.name ∈
      ((alookup ((stream.foldl (processApi rn) st).foreigns) api.resource).getD []).map
        (fun kv => kv.1) := by
  induction stream generalizing st with
  | nil => simp at hmem
  | cons x l ih =>
    rcases List.mem_cons.mp hmem with rfl | hmem2
    · apply parse_bucket_mono rn l (processApi rn st api)
      unfold processApi
      rw [if_pos hfor]
      split
      · rename_i hsome
        obtain ⟨v, hv⟩ := Option.isSome_iff_exists.mp hsome
        exact List.mem_map.mpr ⟨(api.name, v), alookup_mem _ _ _ hv, rfl⟩
      · rw [alookup_aset_self]
        simp only [Option.getD_some]
        rw [List.map_append]
        exact List.mem_append_right _ (by simp)
    · exact ih (processApi rn st x) hmem2

theorem apiStream_apipie (rn : String) (rdef : ResourceDef) :
    ∀ x ∈ apiStream rn rdef, x.apipie_resource = rn := by
  intro x hx
  unfold apiStream at hx
  rw [List.mem_flatten] at hx
  obtain ⟨l, hl, hxl⟩ := hx
  obtain ⟨m, _, rfl⟩ := List.mem_map.mp hl
  obtain ⟨a, _, rfl⟩ := List.mem_map.mp hxl
  rfl

theorem funcsKeys_subset_entryKeys (e : ResEntry) (n : String) (h : n ∈ funcsKeys e) :
    n ∈ entryKeys e :=
  List.mem_append_left _ h

theorem own_methods_mem_metaNames : "_own_methods" ∈ metaNames := by decide

theorem mergeStep_nodup (e : ResEntry) (kv : String × MethodAPIDescription)
    (h : (funcsKeys e).Nodup) : (funcsKeys (mergeStep e kv)).Nodup := by
  unfold mergeStep
  split
  · exact h
  · rename_i hk
    have hnot : kv.1 ∉ funcsKeys e := fun hm => hk (funcsKeys_subset_entryKeys e kv.1 hm)
    show ((e.funcs ++ [kv]).map (fun x => x.1)).Nodup
    rw [List.map_append]
    exact List.Nodup.append h (List.nodup_singleton _)
      (fun y hy hz => by
        simp at hz
        subst hz
        exact hnot hy)

theorem bucketStep_nodup (e : ResEntry) (kv : String × MethodAPIDescription)
    (h : (funcsKeys e).Nodup) : (funcsKeys (bucketStep e kv)).Nodup := by
  unfold bucketStep
  split
  · exact h
  · rename_i hk
    have hnot : kv.1 ∉ funcsKeys e := fun hm => hk (funcsKeys_subset_entryKeys e kv.1 hm)
    show ((e.funcs ++ [kv]).map (fun x => x.1)).Nodup
    rw [List.map_append]
    exact List.Nodup.append h (List.nodup_singleton _)
      (fun y hy hz => by
        simp at hz
        subst hz
        exact hnot hy)

theorem mergeParsedInto_nodup (old : ResEntry) (nf : List (String × MethodAPIDescription))
    (h : (funcsKeys old).Nodup) : (funcsKeys (mergeParsedInto old nf)).Nodup := by
  unfold mergeParsedInto
  induction nf generalizing old with
  | nil => exact h
  | cons kv t ih => exact ih (mergeStep old kv) (mergeStep_nodup old kv h)

theorem bucketMerge_nodup (e : ResEntry) (bucket : List (String × MethodAPIDescription))
    (h : (funcsKeys e).Nodup) : (funcsKeys (bucketMerge e bucket)).Nodup := by
  unfold bucketMerge
  induction bucket generalizing e with
  | nil => exact h
  | cons kv t ih => exact ih (bucketStep e kv) (bucketStep_nodup e kv h)

theorem mergeStep_funcs_cases (e : ResEntry) (kv y : String × MethodAPIDescription)
    (h : y ∈ (mergeStep e kv).funcs) : y ∈ e.funcs ∨ y = kv := by
  unfold mergeStep at h
  split at h
  · exact Or.inl h
  · rcases List.mem_append.mp h with h1 | h2
    · exact Or.inl h1
    · simp only [List.mem_singleton] at h2
      exact Or.inr h2

theorem bucketStep_funcs_cases (e : ResEntry) (kv y : String × MethodAPIDescription)
    (h : y ∈ (bucketStep e kv).funcs) : y ∈ e.funcs ∨ y = kv := by
  unfold bucketStep at h
  split at h
  · exact Or.inl h
  · rcases List.mem_append.mp h with h1 | h2
    · exact Or.inl h1
    · simp only [List.mem_singleton] at h2
      exact Or.inr h2

theorem mergeParsedInto_funcs_cases (old : ResEntry) (nf : List (String × MethodAPIDescription))
    (y : String × MethodAPIDescription) (h : y ∈ (mergeParsedInto old nf).funcs) :
    y ∈ old.funcs ∨ y ∈ nf := by
  unfold mergeParsedInto at h
  induction nf generalizing old with
  | nil => exact Or.inl h
  | cons kv t ih =>
    rcases ih (mergeStep old kv) h with h1 | h2
    · rcases mergeStep_funcs_cases old kv y h1 with h3 | h4
      · exact Or.inl h3
      · exact Or.inr (h4 ▸ List.mem_cons_self _ _)
    · exact Or.inr (List.mem_cons_of_mem _ h2)

theorem bucketMerge_funcs_cases (e : ResEntry) (bucket : List (String × MethodAPIDescription))
    (y : String × MethodAPIDescription) (h : y ∈ (bucketMerge e bucket).funcs) :
    y ∈ e.funcs ∨ y ∈ bucket := by
  unfold bucketMerge at h
  induction bucket generalizing e with
  | nil => exact Or.inl h
  | cons kv t ih =>
    rcases ih (bucketStep e kv) h with h1 | h2
    · rcases bucketStep_funcs_cases e kv y h1 with h3 | h4
      · exact Or.inl h3
      · exact Or.inr (h4 ▸ List.mem_cons_self _ _)
    · exact Or.inr (List.mem_cons_of_mem _ h2)

theorem mergeStep_keys_mono (e : ResEntry) (kv : String × MethodAPIDescription) (n : String)
    (h : n ∈ funcsKeys e) : n ∈ funcsKeys (mergeStep e kv) := by
  unfold mergeStep
  split
  · exact h
  · show n ∈ (e.funcs ++ [kv]).map (fun x => x.1)
    rw [List.map_append]
    exact List.mem_append_left _ h

theorem bucketStep_keys_mono (e : ResEntry) (kv : String × MethodAPIDescription) (n : String)
    (h : n ∈ funcsKeys e) : n ∈ funcsKeys (bucketStep e kv) := by
  unfold bucketStep
  split
  · exact h
  · show n ∈ (e.funcs ++ [kv]).map (fun x => x.1)
    rw [List.map_append]
    exact List.mem_append_left _ h

theorem mergeParsedInto_keys_mono (old : ResEntry)
    (nf : List (String × MethodAPIDescription)) (n : String) (h : n ∈ funcsKeys old) :
    n ∈ funcsKeys (mergeParsedInto old nf) := by
  unfold mergeParsedInto
  induction nf generalizing old with
  | nil => exact h
  | cons kv t ih => exact ih (mergeStep old kv) (mergeStep_keys_mono old kv n h)

theorem bucketMerge_keys_mono (e : ResEntry) (bucket : List (String × MethodAPIDescription))
    (n : String) (h : n ∈ funcsKeys e) : n ∈ funcsKeys (bucketMerge e bucket) := by
  unfold bucketMerge
  induction bucket generalizing e with
  | nil => exact h
  | cons kv t ih => exact ih (bucketStep e kv) (bucketStep_keys_mono e kv n h)

theorem bucketStep_places (e : ResEntry) (kv : String × MethodAPIDescription)
    (htame : kv.1 ∉ metaNames) : kv.1 ∈ funcsKeys (bucketStep e kv) := by
  unfold bucketStep
  split
  · rename_i hk
    rcases List.mem_append.mp hk with h1 | h2
    · exact h1
    · exfalso
      apply htame
      by_cases hmeta : e.hasMeta
      · rw [if_pos hmeta] at h2
        exact h2
      · rw [if_neg hmeta] at h2
        simp only [List.mem_singleton] at h2
        rw [h2]
        exact own_methods_mem_metaNames
  · show kv.1 ∈ (e.funcs ++ [kv]).map (fun x => x.1)
    rw [List.map_append]
    exact List.mem_append_right _ (by simp)

theorem bucketMerge_places (e : ResEntry) (bucket : List (String × MethodAPIDescription))
    (n : String) (hn : n ∈ bucket.map (fun kv => kv.1)) (htame : n ∉ metaNames) :
    n ∈ funcsKeys (bucketMerge e bucket) := by
  unfold bucketMerge
  induction bucket generalizing e with
  | nil => simp at hn
  | cons kv t ih =>
    rcases List.mem_cons.mp hn with heq | hmem
    · subst heq
      exact bucketMerge_keys_mono (bucketStep e kv) t _ (bucketStep_places e kv htame)
    · exact ih (bucketStep e kv) hmem

/-- every entry of the assembler state has pairwise distinct bound names. -/
def EntriesNodup (st : List (String × ResEntry)) : Prop :=
  ∀ ke ∈ st, (funcsKeys ke.2).Nodup

theorem foreignStep_entriesNodup (st : List (String × ResEntry))
    (fb : String × List (String × MethodAPIDescription)) (h : EntriesNodup st) :
    EntriesNodup (foreignStep st fb) := by
  intro ke hke
  rcases mem_aset _ _ _ _ hke with h1 | h2
  · exact h ke h1
  · rw [h2]
    apply bucketMerge_nodup
    cases hb : alookup st fb.1 with
    | none => exact List.nodup_nil
    | some e => exact h (fb.1, e) (alookup_mem _ _ _ hb)

theorem foreignFold_entriesNodup (buckets : List (String × List (String × MethodAPIDescription)))
    (st : List (String × ResEntry)) (h : EntriesNodup st) :
    EntriesNodup (buckets.foldl foreignStep st) := by
  induction buckets generalizing st with
  | nil => exact h
  | cons fb t ih => exact ih (foreignStep st fb) (foreignStep_entriesNodup st fb h)

theorem processResource_entriesNodup (st : List (String × ResEntry)) (x : String × ResourceDef)
    (h : EntriesNodup st) : EntriesNodup (processResource st x) := by
  unfold processResource
  apply foreignFold_entriesNodup
  have hparse : (funcsKeys
      ⟨true, (parseResourceDefinition (pyLower x.1) x.2).own_methods,
        (parseResourceDefinition (pyLower x.1) x.2).funcs,
        (parseResourceDefinition (pyLower x.1) x.2).conflicting⟩).Nodup := by
    exact parse_keys_nodup (pyLower x.1) (apiStream (pyLower x.1) x.2) ⟨[], [], [], []⟩
      rfl List.nodup_nil
  cases hl : alookup st x.1 with
  | none =>
    intro ke hke
    rcases List.mem_append.mp hke with h1 | h2
    · exact h ke h1
    · simp only [List.mem_singleton] at h2
      rw [h2]
      exact hparse
  | some old =>
    intro ke hke
    rcases mem_aset _ _ _ _ hke with h1 | h2
    · exact h ke h1
    · rw [h2]
      exact mergeParsedInto_nodup old _ (h (x.1, old) (alookup_mem _ _ _ hl))

theorem generateApiDefs_entriesNodup (d : List (String × ResourceDef)) :
    EntriesNodup (generateApiDefs d) := by
  unfold generateApiDefs
  have hgen : ∀ st, EntriesNodup st → EntriesNodup (d.foldl processResource st) := by
    induction d with
    | nil => exact fun st h => h
    | cons x t ih => exact fun st h => ih (processResource st x) (processResource_entriesNodup st x h)
  exact hgen [] (fun ke hke => by simp at hke)

/-- a foreign binding only ever sits under the key of its resolved
resource: an own binding has matching resolved and declaring resources, so
the condition is vacuous for it. -/
def OwnForeign (st : List (String × ResEntry)) : Prop :=
  ∀ ke ∈ st, ∀ kv ∈ ke.2.funcs,
    kv.2.resource ≠ kv.2.apipie_resource → ke.1 = kv.2.resource

theorem processResource_ownForeign (st : List (String × ResEntry)) (x : String × ResourceDef)
    (h : OwnForeign st) : OwnForeign (processResource st x) := by
  have hparse := parse_funcs_own (pyLower x.1) (apiStream (pyLower x.1) x.2) ⟨[], [], [], []⟩
    (apiStream_apipie (pyLower x.1) x.2) (by intro kv hkv; simp at hkv)
  have hforeigns := parse_foreigns_spec (pyLower x.1) (apiStream (pyLower x.1) x.2)
    ⟨[], [], [], []⟩ (apiStream_apipie (pyLower x.1) x.2) (by intro fb hfb; simp at hfb)
  unfold processResource
  have hst1 : OwnForeign
      (match alookup st x.1 with
       | some old =>
         aset st x.1 (mergeParsedInto old (parseResourceDefinition (pyLower x.1) x.2).funcs)
       | Option.none =>
         st ++ [(x.1,
           ⟨true, (parseResourceDefinition (pyLower x.1) x.2).own_methods,
             (parseResourceDefinition (pyLower x.1) x.2).funcs,
             (parseResourceDefinition (pyLower x.1) x.2).conflicting⟩)]) := by
    cases hl : alookup st x.1 with
    | none =>
      intro ke hke kv hkv hne
      rcases List.mem_append.mp hke with h1 | h2
      · exact h ke h1 kv hkv hne
      · simp only [List.mem_singleton] at h2
        subst h2
        exact absurd (hparse kv hkv).1 ((hparse kv hkv).2.1 ▸ hne)
    | some old =>
      intro ke hke kv hkv hne
      rcases mem_aset _ _ _ _ hke with h1 | h2
      · exact h ke h1 kv hkv hne
      · subst h2
        rcases mergeParsedInto_funcs_cases old _ kv hkv with h3 | h4
        · exact h (x.1, old) (alookup_mem _ _ _ hl) kv h3 hne
        · exact absurd (hparse kv h4).1 ((hparse kv h4).2.1 ▸ hne)
  have hfold : ∀ (buckets : List (String × List (String × MethodAPIDescription)))
      (st2 : List (String × ResEntry)), ForeignsSpec (pyLower x.1) buckets →
      OwnForeign st2 → OwnForeign (buckets.foldl foreignStep st2) := by
    intro buckets
    induction buckets with
    | nil => exact fun st2 _ h2 => h2
    | cons fb t ih =>
      intro st2 hspec h2
      apply ih (foreignStep st2 fb)
        (fun g hg => hspec g (List.mem_cons_of_mem _ hg))
      intro ke hke kv hkv hne
      rcases mem_aset _ _ _ _ hke with h1 | h2b
      · exact h2 ke h1 kv hkv hne
      · subst h2b
        rcases bucketMerge_funcs_cases _ _ kv hkv with h3 | h4
        · cases hb : alookup st2 fb.1 with
          | none =>
            rw [hb] at h3
            simp [emptyEntry] at h3
          | some e =>
            rw [hb] at h3
            exact h2 (fb.1, e) (alookup_mem _ _ _ hb) kv h3 hne
        · exact ((hspec fb (List.mem_cons_self fb t)).2 kv h4).1.symm
  exact hfold _ _ hforeigns hst1

theorem generateApiDefs_ownForeign (d : List (String × ResourceDef)) :
    OwnForeign (generateApiDefs d) := by
  unfold generateApiDefs
  have hgen : ∀ st, OwnForeign st → OwnForeign (d.foldl processResource st) := by
    induction d with
    | nil => exact fun st h => h
    | cons x t ih => exact fun st h => ih (processResource st x) (processResource_ownForeign st x h)
  exact hgen [] (fun ke hke => by simp at hke)

theorem foreignStep_mono (st : List (String × ResEntry))
    (fb : String × List (String × MethodAPIDescription)) (k : String) (e : ResEntry)
    (h : alookup st k = some e) :
    ∃ e2, alookup (foreignStep st fb) k = some e2 ∧ ∀ n ∈ funcsKeys e, n ∈ funcsKeys e2 := by
  unfold foreignStep
  by_cases hk : k = fb.1
  · subst hk
    rw [alookup_aset_self, h]
    simp only [Option.getD_some]
    exact ⟨_, rfl, fun n hn => bucketMerge_keys_mono _ _ _ hn⟩
  · rw [alookup_aset_ne _ _ _ _ hk]
    exact ⟨e, h, fun n hn => hn⟩

theorem foreignFold_mono (buckets : List (String × List (String × MethodAPIDescription)))
    (st : List (String × ResEntry)) (k : String) (e : ResEntry)
    (h : alookup st k = some e) :
    ∃ e2, alookup (buckets.foldl foreignStep st) k = some e2 ∧
      ∀ n ∈ funcsKeys e, n ∈ funcsKeys e2 := by
  induction buckets generalizing st e with
  | nil => exact ⟨e, h, fun n hn => hn⟩
  | cons fb t ih =>
    obtain ⟨e1, he1, hm1⟩ := foreignStep_mono st fb k e h
    obtain ⟨e2, he2, hm2⟩ := ih (foreignStep st fb) e1 he1
    exact ⟨e2, he2, fun n hn => hm2 n (hm1 n hn)⟩

theorem processResource_mono (st : List (String × ResEntry)) (x : String × ResourceDef)
    (k : String) (e : ResEntry) (h : alookup st k = some e) :
    ∃ e2, alookup (processResource st x) k = some e2 ∧
      ∀ n ∈ funcsKeys e, n ∈ funcsKeys e2 := by
  unfold processResource
  have hst1 : ∃ e1, alookup
      (match alookup st x.1 with
       | some old =>
         aset st x.1 (mergeParsedInto old (parseResourceDefinition (pyLower x.1) x.2).funcs)
       | Option.none =>
         st ++ [(x.1,
           ⟨true, (parseResourceDefinition (pyLower x.1) x.2).own_methods,
             (parseResourceDefinition (pyLower x.1) x.2).funcs,
             (parseResourceDefinition (pyLower x.1) x.2).conflicting⟩)]) k = some e1 ∧
      ∀ n ∈ funcsKeys e, n ∈ funcsKeys e1 := by
    cases hl : alookup st x.1 with
    | none =>
      exact ⟨e, alookup_append_left _ _ _ _ h, fun n hn => hn⟩
    | some old =>
      by_cases hk : k = x.1
      · subst hk
        rw [alookup_aset_self]
        rw [h] at hl
        obtain rfl := Option.some.inj hl
        exact ⟨_, rfl, fun n hn => mergeParsedInto_keys_mono _ _ _ hn⟩
      · rw [alookup_aset_ne _ _ _ _ hk]
        exact ⟨e, h, fun n hn => hn⟩
  obtain ⟨e1, he1, hm1⟩ := hst1
  obtain ⟨e2, he2, hm2⟩ := foreignFold_mono _ _ k e1 he1
  exact ⟨e2, he2, fun n hn => hm2 n (hm1 n hn)⟩

theorem generateFold_mono (t : List (String × ResourceDef))
    (st : List (String × ResEntry)) (k : String) (e : ResEntry)
    (h : alookup st k = some e) :
    ∃ e2, alookup (t.foldl processResource st) k = some e2 ∧
      ∀ n ∈ funcsKeys e, n ∈ funcsKeys e2 := by
  induction t generalizing st e with
  | nil => exact ⟨e, h, fun n hn => hn⟩
  | cons x l ih =>
    obtain ⟨e1, he1, hm1⟩ := processResource_mono st x k e h
    obtain ⟨e2, he2, hm2⟩ := ih (processResource st x) e1 he1
    exact ⟨e2, he2, fun n hn => hm2 n (hm1 n hn)⟩

theorem foreignFold_places (buckets : List (String × List (String × MethodAPIDescription)))
    (st : List (String × ResEntry)) (r n : String)
    (hb : ∃ b, (r, b) ∈ buckets ∧ n ∈ b.map (fun kv => kv.1)) (htame : n ∉ metaNames) :
    ∃ e, alookup (buckets.foldl foreignStep st) r = some e ∧ n ∈ funcsKeys e := by
  induction buckets generalizing st with
  | nil =>
    obtain ⟨b, hmem, _⟩ := hb
    simp at hmem
  | cons fb t ih =>
    obtain ⟨b, hmem, hn⟩ := hb
    rcases List.mem_cons.mp hmem with heq | hmem2
    · have hstep : ∃ e, alookup (foreignStep st fb) r = some e ∧ n ∈ funcsKeys e := by
        rw [← heq]
        unfold foreignStep
        rw [alookup_aset_self]
        exact ⟨_, rfl, bucketMerge_places _ _ _ hn htame⟩
      obtain ⟨e, he, hne⟩ := hstep
      obtain ⟨e2, he2, hmono⟩ := foreignFold_mono t (foreignStep st fb) r e he
      exact ⟨e2, he2, hmono n hne⟩
    · exact ih (foreignStep st fb) ⟨b, hmem2, hn⟩

theorem processResource_places (st : List (String × ResEntry)) (x : String × ResourceDef)
    (api : MethodAPIDescription) (hmem : api ∈ apiStream (pyLower x.1) x.2)
    (hfor : api.resource ≠ api.apipie_resource) (htame : api.name ∉ metaNames) :
    ∃ e, alookup (processResource st x) api.resource = some e ∧ api.name ∈ funcsKeys e := by
  have hapipie : api.apipie_resource = pyLower x.1 := apiStream_apipie (pyLower x.1) x.2 api hmem
  have hfor2 : api.resource ≠ pyLower x.1 := hapipie ▸ hfor
  have hbk := parse_bucket_keys (pyLower x.1) (apiStream (pyLower x.1) x.2) ⟨[], [], [], []⟩
    api hmem hfor2
  unfold processResource
  cases hl : alookup ((parseResourceDefinition (pyLower x.1) x.2).foreigns) api.resource with
  | none =>
    rw [show (parseResourceDefinition (pyLower x.1) x.2).foreigns =
      ((apiStream (pyLower x.1) x.2).foldl (processApi (pyLower x.1)) ⟨[], [], [], []⟩).foreigns
      from rfl] at hl
    rw [hl] at hbk
    simp at hbk
  | some b =>
    rw [show (parseResourceDefinition (pyLower x.1) x.2).foreigns =
      ((apiStream (pyLower x.1) x.2).foldl (processApi (pyLower x.1)) ⟨[], [], [], []⟩).foreigns
      from rfl] at hl
    rw [hl] at hbk
    simp only [Option.getD_some] at hbk
    exact foreignFold_places _ _ api.resource api.name ⟨b, alookup_mem _ _ _ hl, hbk⟩ htame

theorem generate_liveness (d : List (String × ResourceDef)) (rn : String) (rdef : ResourceDef)
    (api : MethodAPIDescription) (hd : (rn, rdef) ∈ d)
    (hmem : api ∈ apiStream (pyLower rn) rdef)
    (hfor : api.resource ≠ api.apipie_resource) (htame : api.name ∉ metaNames) :
    ∃ e, alookup (generateApiDefs d) api.resource = some e ∧ api.name ∈ funcsKeys e := by
  unfold generateApiDefs
  have hgen : ∀ (t : List (String × ResourceDef)) (st : List (String × ResEntry)),
      (rn, rdef) ∈ t →
      ∃ e, alookup (t.foldl processResource st) api.resource = some e ∧
        api.name ∈ funcsKeys e := by
    intro t
    induction t with
    | nil =>
      intro st hmem2
      simp at hmem2
    | cons y l ih =>
      intro st hmem2
      rcases List.mem_cons.mp hmem2 with heq | hmem3
      · have hmem4 : api ∈ apiStream (pyLower y.1) y.2 := by rw [← heq]; exact hmem
        obtain ⟨e, he, hne⟩ := processResource_places st y api hmem4 hfor htame
        obtain ⟨e2, he2, hmono⟩ := generateFold_mono l (processResource st y) api.resource e he
        exact ⟨e2, he2, hmono _ hne⟩
      · exact ih (processResource st y) hmem3
  exact hgen d [] hd

theorem foreignFold_other (buckets : List (String × List (String × MethodAPIDescription)))
    (st : List (String × ResEntry)) (k : String) (hk : ∀ fb ∈ buckets, fb.1 ≠ k) :
    alookup (buckets.foldl foreignStep st) k = alookup st k := by
  induction buckets generalizing st with
  | nil => rfl
  | cons fb t ih =>
    rw [List.foldl_cons, ih (foreignStep st fb) (fun g hg => hk g (List.mem_cons_of_mem _ hg))]
    unfold foreignStep
    exact alookup_aset_ne _ _ _ _ (fun he => (hk fb (List.mem_cons_self _ _)) he.symm)

end AssemblerLemmas

/-- C1 amended: inside one resource parse the first own definition of a
name is bound, every later one joins that parse conflict list, a name
derived at least twice leaves at least one conflict entry there, and every
resource built by the assembler binds pairwise distinct names. The
assembler-level conflict list of a resource whose entry was pre-created by
foreign methods is however discarded by the merge, which is why the claim
is stated at the parse level (see the counterexample). -/
theorem c1_first_wins_and_conflicts (rn : String) (rdef : ResourceDef) (n : String)
    (a : MethodAPIDescription) (rest : List MethodAPIDescription)
    (hf : (apiStream rn rdef).filter (fun x => x.resource == rn && x.name == n) = a :: rest) :
    (∀ d : List (String × ResourceDef), ∀ ke ∈ builtResources d, (funcsKeys ke.2).Nodup) ∧
    alookup (parseResourceDefinition rn rdef).funcs n = some a ∧
    (∀ b ∈ rest, b ∈ (parseResourceDefinition rn rdef).conflicting) ∧
    (rest ≠ [] → ∃ c ∈ (parseResourceDefinition rn rdef).conflicting, c.name = n) := by
  have hfw := parse_firstWins rn (apiStream rn rdef) ⟨[], [], [], []⟩ n a rest rfl
    (by simp) hf
  refine ⟨?_, hfw.1, hfw.2, ?_⟩
  · intro d ke hke
    exact generateApiDefs_entriesNodup d ke (List.mem_of_mem_filter hke)
  · intro hrest
    cases rest with
    | nil => exact absurd rfl hrest
    | cons c t =>
      refine ⟨c, hfw.2 c (List.mem_cons_self _ _), ?_⟩
      have hcf : c ∈ (apiStream rn rdef).filter
          (fun x => x.resource == rn && x.name == n) := by
        rw [hf]
        exact List.mem_cons_of_mem _ (List.mem_cons_self _ _)
      have hpred := List.of_mem_filter hcf
      obtain ⟨_, hname⟩ : c.resource = rn ∧ c.name = n := by simpa using hpred
      exact hname

/-- declaring resource of the counterexample documents: its single method
z lives at a url owned by resource b. -/
def aDef : ResourceDef := ⟨"", [⟨"z", [], [⟨"/api/b", "GET", ""⟩]⟩]⟩

/-- owning resource of the counterexample documents: an own method named
a_z that collides with the foreign name, and a method n with two api
variants deriving the same name. -/
def bDef : ResourceDef :=
  ⟨"", [⟨"a_z", [], [⟨"/api/b", "GET", ""⟩]⟩,
        ⟨"n", [], [⟨"/api/b", "GET", ""⟩, ⟨"/api/b/:id", "GET", ""⟩]⟩]⟩

def docAB : List (String × ResourceDef) := [("a", aDef), ("b", bDef)]

def docBA : List (String × ResourceDef) := [("b", bDef), ("a", aDef)]

/-- descriptor of the method declared by a and owned by b. -/
def zApi : MethodAPIDescription := ⟨"a", "z", [], "/api/b", "GET"⟩

/-- descriptor of the own method of b that shares the name a_z. -/
def azOwn : MethodAPIDescription := ⟨"b", "a_z", [], "/api/b", "GET"⟩

/-- first api variant of method n of b. -/
def nApi1 : MethodAPIDescription := ⟨"b", "n", [], "/api/b", "GET"⟩

/-- second api variant of method n of b, deriving the same name. -/
def nApi2 : MethodAPIDescription := ⟨"b", "n", [], "/api/b/:id", "GET"⟩

/-- C1 counterexample: in the document where a precedes b, the two api
variants of method n of resource b derive the same name and the parse
records the conflict, but the assembled resource b, whose entry was
pre-created by the foreign method of a, ends with an empty conflict list:
the merge drops the parsed conflict record, so the name seen twice appears
nowhere in the conflict list of the built resource. -/
theorem c1_counterexample :
    ((apiStream "b" bDef).filter (fun x => x.resource == "b" && x.name == "n")).length = 2 ∧
    (parseResourceDefinition "b" bDef).conflicting = [nApi2] ∧
    generateApiDefs docAB =
      [("a", ⟨true, [], [], []⟩),
       ("b", ⟨false, ["a_z"], [("a_z", zApi), ("n", nApi1)], []⟩)] := by
  refine ⟨by decide, by decide, by decide⟩

/-- C1 witness: the first variant of n is bound and the second sits in the
parse conflict list of b. -/
theorem c1_witness :
    alookup (parseResourceDefinition "b" bDef).funcs "n" = some nApi1 ∧
    nApi2 ∈ (parseResourceDefinition "b" bDef).conflicting := by
  have h := c1_first_wins_and_conflicts "b" bDef "n" nApi1 [nApi2] (by decide)
  exact ⟨h.2.1, h.2.2.1 nApi2 (List.mem_cons_self _ _)⟩

/-- C2 amended: a foreign binding only ever appears under the key of its
owning resource, never under its declaring resource, and the name of every
foreign descriptor of the document is present among the bound names of the
owning resource entry; when a foreign name collides in the owning
namespace, whichever binding arrived first is kept and the later one is
logged and skipped, so the owning resource own method survives only when
the owning resource was processed before the declaring one. -/
theorem c2_foreign_placement :
    (∀ d : List (String × ResourceDef), ∀ ke ∈ generateApiDefs d, ∀ kv ∈ ke.2.funcs,
      kv.2.resource ≠ kv.2.apipie_resource →
        ke.1 = kv.2.resource ∧ ke.1 ≠ kv.2.apipie_resource) ∧
    (∀ d : List (String × ResourceDef), ∀ rn rdef api, (rn, rdef) ∈ d →
      api ∈ apiStream (pyLower rn) rdef →
      api.resource ≠ api.apipie_resource → api.name ∉ metaNames →
      ∃ e, alookup (generateApiDefs d) api.resource = some e ∧
        api.name ∈ funcsKeys e) := by
  constructor
  · intro d ke hke kv hkv hne
    have h1 := generateApiDefs_ownForeign d ke hke kv hkv hne
    exact ⟨h1, h1 ▸ hne⟩
  · intro d rn rdef api hd hmem hfor htame
    exact generate_liveness d rn rdef api hd hmem hfor htame

/-- C2 counterexample: in the document where the declaring resource a
precedes the owning resource b, the name a_z of resource b is bound to the
foreign descriptor declared by a, not to the own method of b of the same
name: the code keeps whichever binding arrived first and here the foreign
one arrived first, so the own method of the owning resource is dropped. -/
theorem c2_counterexample :
    azOwn ∈ apiStream "b" bDef ∧ azOwn.name = "a_z" ∧ azOwn.resource = "b" ∧
    zApi.apipie_resource = "a" ∧ zApi.resource = "b" ∧ zApi.name = "a_z" ∧
    alookup (generateApiDefs docAB) "b" =
      some ⟨false, ["a_z"], [("a_z", zApi), ("n", nApi1)], []⟩ ∧
    zApi ≠ azOwn := by
  refine ⟨by decide, by decide, by decide, by decide, by decide, by decide, by decide, by decide⟩

/-- C2 witness: the foreign method of a lands under the owning resource b. -/
theorem c2_witness :
    ∃ e, alookup (generateApiDefs docAB) "b" = some e ∧ "a_z" ∈ funcsKeys e :=
  c2_foreign_placement.2 docAB "a" aDef zApi (by decide) (by decide) (by decide) (by decide)

/-- C6 amended: the assembler is a pure deterministic function of the
ordered document, so feeding the same document twice yields identical
output; within a single-resource document the binding of a name is decided
by declaration order alone, first definition winning; but across resources
the winner of a foreign-own collision depends on the iteration order of the
resource mapping (see the counterexample). -/
theorem c6_determinism_and_declaration_order :
    (∀ d1 d2 : List (String × ResourceDef), d1 = d2 →
      generateApiDefs d1 = generateApiDefs d2) ∧
    (∀ (rn : String) (rdef : ResourceDef) (n : String) (a : MethodAPIDescription)
      (rest : List MethodAPIDescription), pyLower rn = rn →
      (apiStream rn rdef).filter (fun x => x.resource == rn && x.name == n) = a :: rest →
      ∃ e, alookup (generateApiDefs [(rn, rdef)]) rn = some e ∧
        alookup e.funcs n = some a) := by
  constructor
  · intro d1 d2 h
    rw [h]
  · intro rn rdef n a rest hlow hf
    have hfw := parse_firstWins rn (apiStream rn rdef) ⟨[], [], [], []⟩ n a rest rfl
      (by simp) hf
    have hkeysne : ∀ fb ∈ (parseResourceDefinition (pyLower rn) rdef).foreigns,
        fb.1 ≠ rn := by
      intro fb hfb
      have hspec := parse_foreigns_spec (pyLower rn) (apiStream (pyLower rn) rdef)
        ⟨[], [], [], []⟩ (apiStream_apipie (pyLower rn) rdef)
        (by intro g hg; simp at hg) fb hfb
      rw [hlow] at hspec
      exact hspec.1
    have hout : generateApiDefs [(rn, rdef)] =
        (parseResourceDefinition (pyLower rn) rdef).foreigns.foldl foreignStep
          [(rn, ⟨true, (parseResourceDefinition (pyLower rn) rdef).own_methods,
            (parseResourceDefinition (pyLower rn) rdef).funcs,
            (parseResourceDefinition (pyLower rn) rdef).conflicting⟩)] := rfl
    rw [hout, foreignFold_other _ _ rn hkeysne]
    refine ⟨⟨true, (parseResourceDefinition (pyLower rn) rdef).own_methods,
      (parseResourceDefinition (pyLower rn) rdef).funcs,
      (parseResourceDefinition (pyLower rn) rdef).conflicting⟩, ?_, ?_⟩
    · simp [alookup]
    · rw [hlow]
      exact hfw.1

/-- C6 counterexample: the two documents are permutations of the same
resource mapping, yet the binding of the name a_z in resource b differs:
with a first the foreign descriptor wins, with b first the own method of b
wins, so the outcome of the collision depends on the iteration order of the
mapping over resources. -/
theorem c6_counterexample :
    docAB.Perm docBA ∧
    (alookup (generateApiDefs docAB) "b").map (fun e => alookup e.funcs "a_z") =
      some (some zApi) ∧
    (alookup (generateApiDefs docBA) "b").map (fun e => alookup e.funcs "a_z") =
      some (some azOwn) ∧
    zApi ≠ azOwn := by
  refine ⟨by decide, by decide, by decide, by decide⟩

/-- C6 witness: in the single-resource document of b, the first declared
variant of n is the one bound. -/
theorem c6_witness :
    ∃ e, alookup (generateApiDefs [("b", bDef)]) "b" = some e ∧
      alookup e.funcs "n" = some nApi1 :=
  c6_determinism_and_declaration_order.2 "b" bDef "n" nApi1 [nApi2] (by decide) (by decide)

end Foreman
